import Mathlib

/-!
Verification of the StreamFix core: the streaming preprocessor, the JSON
extraction finite state machine, the conservative repair pass, the stream
orchestrator's finalization path, and the artifact stores.  All definitions
are shallow embeddings of the Python source (src/app/core/fsm.py,
src/app/core/repair.py, src/app/core/stream_processor.py,
src/app/api/chat_noauth.py, src/app/api/streamfix.py), working over
`List Char` in place of Python `str`.  Recursive scanners carry an explicit
fuel argument (always instantiated with at least the input length plus one)
so that they are structurally recursive and kernel-evaluable.
-/

/-- Character constants, named to keep quote-like characters out of literals. -/
def quoteC : Char := Char.ofNat 34

def backslashC : Char := Char.ofNat 92

def squoteC : Char := Char.ofNat 39

def btickC : Char := Char.ofNat 96

/-- `"<think>"` marker from fsm.py. -/
def THINK_OPEN : List Char := ['<', 't', 'h', 'i', 'n', 'k', '>']

/-- `"</think>"` marker from fsm.py. -/
def THINK_CLOSE : List Char := ['<', '/', 't', 'h', 'i', 'n', 'k', '>']

/-- The triple-backtick fence marker from fsm.py. -/
def FENCE : List Char := [btickC, btickC, btickC]

/-- `TAIL = 7` from fsm.py. -/
def TAIL : Nat := 7

/-- `PreprocessState` dataclass from fsm.py. -/
structure PreprocessState where
  in_think : Bool := false
  fence_open : Bool := false
  fence_lang_captured : Bool := false
  carry : List Char := []
  has_fences : Bool := false
  fence_only_content : List Char := []
  all_content : List Char := []
deriving Repr, DecidableEq

/-- The per-character scanning loop shared by `preprocess_chunk` (over `body`)
and `preprocess_finalize` (over the carry).  Returns the updated state and the
characters emitted (Python `immediate_out` / `processed_tail`).  The marker
checks use `startswith` within the scanned region only, exactly as the source
does. -/
def ppScan : Nat → PreprocessState → List Char → PreprocessState × List Char
  | 0, s, _ => (s, [])
  | _ + 1, s, [] => (s, [])
  | fuel + 1, s, c :: rest =>
    if THINK_OPEN.isPrefixOf (c :: rest) then
      ppScan fuel { s with in_think := true } ((c :: rest).drop THINK_OPEN.length)
    else if s.in_think ∧ THINK_CLOSE.isPrefixOf (c :: rest) then
      ppScan fuel { s with in_think := false } ((c :: rest).drop THINK_CLOSE.length)
    else if FENCE.isPrefixOf (c :: rest) then
      ppScan fuel
        { s with has_fences := true, fence_open := !s.fence_open,
                 fence_lang_captured := false }
        ((c :: rest).drop FENCE.length)
    else if s.in_think then
      ppScan fuel s rest
    else if s.fence_open ∧ !s.fence_lang_captured then
      ppScan fuel { s with fence_lang_captured := (c = '\n') } rest
    else
      let s' := { s with
        fence_only_content :=
          if s.fence_open then s.fence_only_content ++ [c] else s.fence_only_content,
        all_content := s.all_content ++ [c] }
      let (s'', out) := ppScan fuel s' rest
      (s'', c :: out)

/-- `preprocess_chunk` from fsm.py: buffer the carry plus the new text, defer
the trailing `TAIL` characters, scan the body, and return the emitted prefix. -/
def preprocess_chunk (text : List Char) (s : PreprocessState) :
    PreprocessState × List Char :=
  let buf := s.carry ++ text
  if buf = [] then (s, [])
  else if buf.length ≤ TAIL then ({ s with carry := buf }, [])
  else
    let cut := buf.length - TAIL
    let body := buf.take cut
    let tail := buf.drop cut
    let (s', out) := ppScan (body.length + 1) s body
    ({ s' with carry := tail }, out)

/-- `preprocess_finalize` from fsm.py: scan whatever remains in the carry with
the same rules and reset the carry. -/
def preprocess_finalize (s : PreprocessState) : PreprocessState × List Char :=
  if s.carry = [] then (s, [])
  else
    let chunk := s.carry
    ppScan (chunk.length + 1) { s with carry := [] } chunk

/-- `preprocess_get_result` from fsm.py: prefer fenced content when any fence
was seen. -/
def preprocess_get_result (s : PreprocessState) : List Char :=
  if s.has_fences then s.fence_only_content else s.all_content

/-- Feeding a list of chunks through `preprocess_chunk`, then
`preprocess_finalize`, then `preprocess_get_result` — the call sequence of the
chunking-equivalence contract (and of the `preprocess_streaming` test helper). -/
def runChunks (chunks : List (List Char)) : List Char :=
  let s := chunks.foldl (fun s c => (preprocess_chunk c s).1) {}
  preprocess_get_result (preprocess_finalize s).1

/-- FSM phases (Python stores them as strings `"SEEK_START"` etc.). -/
inductive Phase where
  | SEEK_START
  | IN_JSON
  | DONE
  | FAILED
deriving Repr, DecidableEq

/-- Result statuses returned by `fsm_result`. -/
inductive Status where
  | DONE
  | TRUNCATED
  | FAILED
deriving Repr, DecidableEq

/-- `JsonFsmState` dataclass from fsm.py.  `completable` is set dynamically by
`fsm_finalize` in Python and read back with `getattr(state, 'completable',
False)`; here it is a field defaulting to `false`. -/
structure JsonFsmState where
  state : Phase := Phase.SEEK_START
  depth : Int := 0
  in_string : Bool := false
  escape : Bool := false
  started_with : Option Char := none
  buf : List Char := []
  max_chars : Nat := 200000
  completable : Bool := false
deriving Repr, DecidableEq

/-- Root-kind hint accepted by `fsm_feed` (`"object" | "array" | None`). -/
inductive RootHint where
  | object
  | array
deriving Repr, DecidableEq

/-- One character of the `fsm_feed` loop from fsm.py.  Python exits the loop by
`return` once `DONE` or `FAILED` is set and the function's entry guard skips
terminal states, which is equivalent to a no-op step on terminal states. -/
def fsm_step (root : Option RootHint) (s : JsonFsmState) (ch : Char) : JsonFsmState :=
  if s.state = Phase.DONE ∨ s.state = Phase.FAILED then s
  else if s.state = Phase.SEEK_START then
    if root = some RootHint.object ∧ ch ≠ '{' then s
    else if root = some RootHint.array ∧ ch ≠ '[' then s
    else if ch = '{' ∨ ch = '[' then
      { s with state := Phase.IN_JSON, started_with := some ch, depth := 1,
               buf := s.buf ++ [ch] }
    else s
  else
    let s := { s with buf := s.buf ++ [ch] }
    if s.in_string then
      if s.escape then { s with escape := false }
      else if ch = backslashC then { s with escape := true }
      else if ch = quoteC then { s with in_string := false }
      else s
    else if ch = quoteC then { s with in_string := true }
    else
      let s :=
        if ch = '{' ∨ ch = '[' then { s with depth := s.depth + 1 }
        else if ch = '}' ∨ ch = ']' then { s with depth := s.depth - 1 }
        else s
      if (ch = '}' ∨ ch = ']') ∧ s.depth = 0 then { s with state := Phase.DONE }
      else if s.max_chars ≤ s.buf.length then { s with state := Phase.FAILED }
      else s

/-- `fsm_feed` from fsm.py. -/
def fsm_feed (s : JsonFsmState) (text : List Char) (root : Option RootHint := none) :
    JsonFsmState :=
  text.foldl (fsm_step root) s

/-- `fsm_finalize` from fsm.py. -/
def fsm_finalize (s : JsonFsmState) : JsonFsmState :=
  if s.state = Phase.IN_JSON ∧ !s.in_string ∧ s.buf ≠ [] then
    { s with completable := true }
  else s

/-- `fsm_result` from fsm.py: `(json_text_or_empty, status)`. -/
def fsm_result (s : JsonFsmState) : List Char × Status :=
  if s.state = Phase.DONE then (s.buf, Status.DONE)
  else if s.state = Phase.IN_JSON then
    if s.completable ∧ !s.in_string ∧ s.buf ≠ [] then (s.buf, Status.DONE)
    else (s.buf, Status.TRUNCATED)
  else ([], Status.FAILED)

/-- `extract_json_from_content` from fsm.py. -/
def extract_json_from_content (content : List Char) : List Char × Status :=
  if content = [] then ([], Status.FAILED)
  else
    let (s1, _) := preprocess_chunk content {}
    let (s2, _) := preprocess_finalize s1
    let clean := preprocess_get_result s2
    let f := fsm_feed {} clean
    fsm_result (fsm_finalize f)

/-- Python regex `\s` in str mode and `str.strip()` whitespace: the
characters for which `str.isspace()` holds (CPython `Py_UNICODE_ISSPACE`):
U+0009–U+000D, U+001C–U+001F, space, NEL, NBSP, Ogham space mark,
U+2000–U+200A, line/paragraph separator, narrow no-break space, medium
mathematical space, and ideographic space. -/
def pyIsSpace (c : Char) : Bool :=
  (9 ≤ c.toNat ∧ c.toNat ≤ 13) ∨ (28 ≤ c.toNat ∧ c.toNat ≤ 32) ∨
  c.toNat = 133 ∨ c.toNat = 160 ∨ c.toNat = 5760 ∨
  (8192 ≤ c.toNat ∧ c.toNat ≤ 8202) ∨ c.toNat = 8232 ∨ c.toNat = 8233 ∨
  c.toNat = 8239 ∨ c.toNat = 8287 ∨ c.toNat = 12288

/-- `[a-zA-Z_]`, the identifier-start alphabet of the key-quoting regex. -/
def isWordStart (c : Char) : Bool :=
  ('a' ≤ c ∧ c ≤ 'z') ∨ ('A' ≤ c ∧ c ≤ 'Z') ∨ c = '_'

/-- `[a-zA-Z0-9_]` (regex `\w` on ASCII input). -/
def isWordChar (c : Char) : Bool :=
  isWordStart c ∨ ('0' ≤ c ∧ c ≤ '9')

/-- `[a-zA-Z]`. -/
def isAlphaChar (c : Char) : Bool :=
  ('a' ≤ c ∧ c ≤ 'z') ∨ ('A' ≤ c ∧ c ≤ 'Z')

/-- `str.strip()` on both ends. -/
def pyStrip (l : List Char) : List Char :=
  ((l.dropWhile pyIsSpace).reverse.dropWhile pyIsSpace).reverse

/-- JSON whitespace skipped by `json.loads` (`' \t\n\r'`). -/
def skipWs (l : List Char) : List Char :=
  l.dropWhile fun c => c = ' ' ∨ c = '\t' ∨ c = '\n' ∨ c = '\r'

/-- JSON values as produced by `json.loads`.  Numbers (including the Python
extensions `NaN`/`Infinity`/`-Infinity`) keep their source token; the claims
never inspect numeric values. -/
inductive Json where
  | jnull
  | jbool (b : Bool)
  | jnum (tok : List Char)
  | jstr (s : List Char)
  | jarr (elems : List Json)
  | jobj (members : List (List Char × Json))

/-- Hex digit value, for `\uXXXX` escapes. -/
def hexVal (c : Char) : Option Nat :=
  if '0' ≤ c ∧ c ≤ '9' then some (c.toNat - '0'.toNat)
  else if 'a' ≤ c ∧ c ≤ 'f' then some (c.toNat - 'a'.toNat + 10)
  else if 'A' ≤ c ∧ c ≤ 'F' then some (c.toNat - 'A'.toNat + 10)
  else none

/-- JSON string body after the opening quote, in strict mode: raw control
characters below 0x20 are rejected, escapes are the eight standard ones plus
`\uXXXX`.  Returns the decoded characters and the input after the closing
quote. -/
def parseStringBody : Nat → List Char → Option (List Char × List Char)
  | 0, _ => none
  | _ + 1, [] => none
  | fuel + 1, c :: rest =>
    if c = quoteC then some ([], rest)
    else if c = backslashC then
      match rest with
      | [] => none
      | e :: r2 =>
        if e = 'u' then
          match r2 with
          | h1 :: h2 :: h3 :: h4 :: r3 =>
            match hexVal h1, hexVal h2, hexVal h3, hexVal h4 with
            | some a, some b, some c', some d =>
              match parseStringBody fuel r3 with
              | some (s, r) => some (Char.ofNat (((a * 16 + b) * 16 + c') * 16 + d) :: s, r)
              | none => none
            | _, _, _, _ => none
          | _ => none
        else
          let dec : Option Char :=
            if e = quoteC then some quoteC
            else if e = backslashC then some backslashC
            else if e = '/' then some '/'
            else if e = 'b' then some (Char.ofNat 8)
            else if e = 'f' then some (Char.ofNat 12)
            else if e = 'n' then some '\n'
            else if e = 'r' then some '\r'
            else if e = 't' then some '\t'
            else none
          match dec with
          | some d =>
            match parseStringBody fuel r2 with
            | some (s, r) => some (d :: s, r)
            | none => none
          | none => none
    else if c.toNat < 32 then none
    else
      match parseStringBody fuel rest with
      | some (s, r) => some (c :: s, r)
      | none => none

/-- The number token regex of `json.loads`:
`(-?(?:0|[1-9]\d*))(\.\d+)?([eE][-+]?\d+)?`.  Returns the matched token and
the remaining input, or `none` when no number starts here. -/
def parseNumber (l : List Char) : Option (List Char × List Char) :=
  let (sign, l1) := match l with
    | '-' :: r => (['-'], r)
    | _ => (([] : List Char), l)
  match l1 with
  | c :: r =>
    if ¬ c.isDigit then none
    else
      let (ip, afterInt) :=
        if c = '0' then ([c], r)
        else (c :: r.takeWhile Char.isDigit, r.dropWhile Char.isDigit)
      let (fp, afterFrac) :=
        match afterInt with
        | '.' :: r2 =>
          let ds := r2.takeWhile Char.isDigit
          if ds = [] then (([] : List Char), afterInt)
          else ('.' :: ds, r2.dropWhile Char.isDigit)
        | _ => (([] : List Char), afterInt)
      let (ep, afterExp) :=
        match afterFrac with
        | e :: r2 =>
          if e = 'e' ∨ e = 'E' then
            let (sg, r3) := match r2 with
              | '+' :: r4 => (['+'], r4)
              | '-' :: r4 => (['-'], r4)
              | _ => (([] : List Char), r2)
            let ds := r3.takeWhile Char.isDigit
            if ds = [] then (([] : List Char), afterFrac)
            else (e :: sg ++ ds, r3.dropWhile Char.isDigit)
          else (([] : List Char), afterFrac)
        | _ => (([] : List Char), afterFrac)
      some (sign ++ ip ++ fp ++ ep, afterExp)
  | [] => none

mutual

/-- `scan_once` of the pure-Python `json` scanner: one JSON value starting at
the current position (no leading whitespace skip). -/
def parseValue : Nat → List Char → Option (Json × List Char)
  | 0, _ => none
  | fuel + 1, l =>
    match l with
    | [] => none
    | c :: rest =>
      if c = quoteC then
        match parseStringBody (rest.length + 1) rest with
        | some (s, r) => some (Json.jstr s, r)
        | none => none
      else if c = '{' then
        match skipWs rest with
        | '}' :: r => some (Json.jobj [], r)
        | l1 => parsePairs fuel l1 []
      else if c = '[' then
        match skipWs rest with
        | ']' :: r => some (Json.jarr [], r)
        | l1 => parseElems fuel l1 []
      else if ['n', 'u', 'l', 'l'].isPrefixOf l then some (Json.jnull, l.drop 4)
      else if ['t', 'r', 'u', 'e'].isPrefixOf l then some (Json.jbool true, l.drop 4)
      else if ['f', 'a', 'l', 's', 'e'].isPrefixOf l then some (Json.jbool false, l.drop 5)
      else
        match parseNumber l with
        | some (tok, r) => some (Json.jnum tok, r)
        | none =>
          if ['N', 'a', 'N'].isPrefixOf l then some (Json.jnum ['N', 'a', 'N'], l.drop 3)
          else if ['I', 'n', 'f', 'i', 'n', 'i', 't', 'y'].isPrefixOf l then
            some (Json.jnum (l.take 8), l.drop 8)
          else if ['-', 'I', 'n', 'f', 'i', 'n', 'i', 't', 'y'].isPrefixOf l then
            some (Json.jnum (l.take 9), l.drop 9)
          else none

/-- Array members after `[` and whitespace, when the array is non-empty. -/
def parseElems : Nat → List Char → List Json → Option (Json × List Char)
  | 0, _, _ => none
  | fuel + 1, l, acc =>
    match parseValue fuel l with
    | none => none
    | some (v, r) =>
      match skipWs r with
      | ']' :: r2 => some (Json.jarr (acc ++ [v]), r2)
      | ',' :: r2 => parseElems fuel (skipWs r2) (acc ++ [v])
      | _ => none

/-- Object members after `{` and whitespace, when the object is non-empty:
a double-quoted key, `:`, a value, then `,` or `}` (whitespace allowed around
each token, no trailing comma). -/
def parsePairs : Nat → List Char → List (List Char × Json) →
    Option (Json × List Char)
  | 0, _, _ => none
  | fuel + 1, l, acc =>
    match l with
    | c :: r0 =>
      if c = quoteC then
        match parseStringBody (r0.length + 1) r0 with
        | none => none
        | some (k, r1) =>
          match skipWs r1 with
          | ':' :: r2 =>
            match parseValue fuel (skipWs r2) with
            | none => none
            | some (v, r3) =>
              match skipWs r3 with
              | '}' :: r4 => some (Json.jobj (acc ++ [(k, v)]), r4)
              | ',' :: r4 => parsePairs fuel (skipWs r4) (acc ++ [(k, v)])
              | _ => none
          | _ => none
      else none
    | [] => none

end

/-- `json.loads`: optional whitespace, one value, optional whitespace, end of
input. -/
def jsonParse (t : List Char) : Option Json :=
  match parseValue (2 * t.length + 2) (skipWs t) with
  | some (v, r) => if skipWs r = [] then some v else none
  | none => none

/-- Whether `json.loads` succeeds (the only thing the repair code and the
artifact paths ask of the parser). -/
def jsonValid (t : List Char) : Bool :=
  (jsonParse t).isSome

/-- One attempted match of the key-quoting regex
`([{\s,]\s*)([a-zA-Z_][a-zA-Z0-9_]*)(\s*:)` at the head of the input.  On a
match, returns the replacement text (the key wrapped in double quotes, the
surrounding context kept) and the input after the match.  The character
classes of the three groups are pairwise disjoint, so the greedy match is
this deterministic decomposition. -/
def tryKeyMatch (l : List Char) : Option (List Char × List Char) :=
  match l with
  | [] => none
  | c :: rest =>
    if c = '{' ∨ c = ',' ∨ pyIsSpace c then
      let ws := rest.takeWhile pyIsSpace
      match rest.dropWhile pyIsSpace with
      | k :: kr =>
        if isWordStart k then
          let kw := kr.takeWhile isWordChar
          let ws2 := (kr.dropWhile isWordChar).takeWhile pyIsSpace
          match (kr.dropWhile isWordChar).dropWhile pyIsSpace with
          | b :: r4 =>
            if b = ':' then
              some (c :: ws ++ quoteC :: (k :: kw) ++ quoteC :: (ws2 ++ [':']), r4)
            else none
          | [] => none
        else none
      | [] => none
    else none

/-- Left-to-right, non-overlapping application of `tryKeyMatch`, the scan
performed by `re.sub` in `fix_unquoted_keys`. -/
def fukF : Nat → List Char → List Char
  | 0, l => l
  | fuel + 1, l =>
    match tryKeyMatch l with
    | some (repl, rest) => repl ++ fukF fuel rest
    | none =>
      match l with
      | [] => []
      | c :: cs => c :: fukF fuel cs

/-- `fix_unquoted_keys` from repair.py. -/
def fix_unquoted_keys (l : List Char) : List Char :=
  fukF (l.length + 1) l

/-- `fix_quote_types` from repair.py: `json_text.replace("'", '"')`. -/
def fix_quote_types (l : List Char) : List Char :=
  l.map fun c => if c = squoteC then quoteC else c

/-- `fix_kv_pair` from repair.py, applied to one matched key-value span:
split at the first colon, strip the value, and if the value starts and ends
with a double quote and contains more than two of them, backslash-escape every
quote of its interior. -/
def fix_kv_pair (kv : List Char) : List Char :=
  if ¬ kv.contains ':' then kv
  else
    let key_part := kv.takeWhile (· ≠ ':') ++ [':']
    let value_part := pyStrip ((kv.dropWhile (· ≠ ':')).drop 1)
    if value_part.head? = some quoteC ∧ value_part.getLast? = some quoteC ∧
        2 < value_part.count quoteC then
      let inner := (value_part.drop 1).dropLast
      let innerFixed :=
        inner.flatMap fun c => if c = quoteC then [backslashC, quoteC] else [c]
      key_part ++ ' ' :: quoteC :: innerFixed ++ [quoteC]
    else kv

/-- One attempted match of the unescaped-quote pattern
`"[^"]*":\s*"[^"]*"[^"]*"[^"]*"` at the head of the input.  Returns the
matched span and the input after it. -/
def tryUQMatch (l : List Char) : Option (List Char × List Char) :=
  match l with
  | [] => none
  | c :: r0 =>
    if c = quoteC then
      let key := r0.takeWhile (· ≠ quoteC)
      match r0.dropWhile (· ≠ quoteC) with
      | _ :: b1 :: r1 =>
        if b1 ≠ ':' then none else
        let ws := r1.takeWhile pyIsSpace
        match r1.dropWhile pyIsSpace with
        | v0 :: r2 =>
          if v0 = quoteC then
            let v1 := r2.takeWhile (· ≠ quoteC)
            match r2.dropWhile (· ≠ quoteC) with
            | _ :: r3 =>
              let v2 := r3.takeWhile (· ≠ quoteC)
              match r3.dropWhile (· ≠ quoteC) with
              | _ :: r4 =>
                let v3 := r4.takeWhile (· ≠ quoteC)
                match r4.dropWhile (· ≠ quoteC) with
                | _ :: r5 =>
                  some (quoteC :: key ++ quoteC :: ':' :: ws ++
                        quoteC :: v1 ++ quoteC :: v2 ++ quoteC :: v3 ++ [quoteC], r5)
                | [] => none
              | [] => none
            | [] => none
          else none
        | [] => none
      | _ => none
    else none

/-- The `re.sub(pattern, fix_kv_pair, json_text)` scan of
`fix_unescaped_quotes`. -/
def uqSubF : Nat → List Char → List Char
  | 0, l => l
  | fuel + 1, l =>
    match tryUQMatch l with
    | some (m, rest) => fix_kv_pair m ++ uqSubF fuel rest
    | none =>
      match l with
      | [] => []
      | c :: cs => c :: uqSubF fuel cs

/-- `fix_unescaped_quotes` from repair.py: leave parseable input alone,
otherwise apply the substitution and keep it only if the result parses. -/
def fix_unescaped_quotes (t : List Char) : List Char :=
  if jsonValid t then t
  else
    let result := uqSubF (t.length + 1) t
    if result ≠ t then
      if jsonValid result then result else t
    else t

/-- The trailing-comma scan `re.sub(r",\s*([}\]])", r"\1", t)` (step 4 of
`safe_repair`). -/
def rtcF : Nat → List Char → List Char
  | 0, l => l
  | _ + 1, [] => []
  | fuel + 1, c :: rest =>
    if c = ',' then
      match rest.dropWhile pyIsSpace with
      | b :: r2 =>
        if b = '}' ∨ b = ']' then b :: rtcF fuel r2
        else c :: rtcF fuel rest
      | [] => c :: rtcF fuel rest
    else c :: rtcF fuel rest

/-- Step 4 of `safe_repair`: remove commas that directly precede a closer,
possibly through whitespace. -/
def remove_trailing_commas (l : List Char) : List Char :=
  rtcF (l.length + 1) l

/-- Split a final newline off, because regex `$` also matches just before a
newline that ends the string. -/
def coreAndNl (t : List Char) : List Char × List Char :=
  match t.getLast? with
  | some c => if c = '\n' then (t.dropLast, ['\n']) else (t, [])
  | none => (t, [])

/-- `re.search(r'\b(tok)$', t)`: the token ends the string (or precedes the
final newline) and is preceded by a word boundary. -/
def endsWithTok (tok : List Char) (t : List Char) : Bool :=
  let core := (coreAndNl t).1
  tok.isSuffixOf core &&
    (match (core.take (core.length - tok.length)).getLast? with
     | some c => ! isWordChar c
     | none => true)

/-- `re.sub(r'\b(tok)$', full, t)`: replace that final token. -/
def completeTok (tok full : List Char) (t : List Char) : List Char :=
  let (core, nl) := coreAndNl t
  core.take (core.length - tok.length) ++ full ++ nl

/-- One attempted match of `"\w+":\s*[a-zA-Z]+$` starting at the head of the
input: a quoted identifier key, a colon, optional whitespace and a dangling
alphabetic value running to the end (or to a final newline, which `$` skips).
Returns the characters the regex leaves behind. -/
def dkvHere (l : List Char) : Option (List Char) :=
  match l with
  | c :: r0 =>
    if c = quoteC then
      let w := r0.takeWhile isWordChar
      if w = [] then none
      else
        match r0.dropWhile isWordChar with
        | q :: ':' :: r1 =>
          if q = quoteC then
            let a := r1.dropWhile pyIsSpace
            let alpha := a.takeWhile isAlphaChar
            let rest := a.dropWhile isAlphaChar
            if alpha ≠ [] ∧ (rest = [] ∨ rest = ['\n']) then some rest else none
          else none
        | _ => none
    else none
  | [] => none

/-- `re.sub(r'"\w+":\s*[a-zA-Z]+$', '', t)`: drop a dangling
`"key": partialword` tail (leftmost match wins). -/
def dkvStrip : Nat → List Char → Option (List Char)
  | 0, _ => none
  | fuel + 1, l =>
    match dkvHere l with
    | some kept => some kept
    | none =>
      match l with
      | [] => none
      | c :: cs => (dkvStrip fuel cs).map fun kept => c :: kept

/-- The dangling key-value removal with its identity fallback. -/
def dangling_kv_sub (t : List Char) : List Char :=
  match dkvStrip (t.length + 1) t with
  | some r => r
  | none => t

/-- `re.sub(r',\s*$', '', t)`: drop a comma followed only by whitespace up to
the end of the string. -/
def trailing_comma_end_sub : Nat → List Char → List Char
  | 0, l => l
  | _ + 1, [] => []
  | fuel + 1, c :: cs =>
    if c = ',' ∧ cs.all pyIsSpace then []
    else c :: trailing_comma_end_sub fuel cs

/-- The string-aware closer-stack scan of `safe_repair` step 5: stack of
expected closers, top first (Python keeps the top at the end of its list and
appends the reversal, which is the same order). -/
def stackScanGo (stack : List Char) (in_string escape : Bool) :
    List Char → List Char
  | [] => stack
  | c :: rest =>
    if in_string then
      if escape then stackScanGo stack true false rest
      else if c = backslashC then stackScanGo stack true true rest
      else if c = quoteC then stackScanGo stack false escape rest
      else stackScanGo stack true escape rest
    else
      if c = quoteC then stackScanGo stack true escape rest
      else if c = '{' then stackScanGo ('}' :: stack) in_string escape rest
      else if c = '[' then stackScanGo (']' :: stack) in_string escape rest
      else if c = '}' ∨ c = ']' then
        match stack with
        | top :: pop =>
          if top = c then stackScanGo pop in_string escape rest
          else stackScanGo stack in_string escape rest
        | [] => stackScanGo stack in_string escape rest
      else stackScanGo stack in_string escape rest

/-- Step 5 of `safe_repair` (truncation completion), reached only when an FSM
state is supplied, it is not `DONE`, and its depth is positive. -/
def truncation_complete (t0 : List Char) (st : JsonFsmState) : List Char :=
  let t1 := if st.in_string ∧ ¬ (t0.getLast? = some quoteC) then t0 ++ [quoteC] else t0
  let t2 :=
    if endsWithTok ['t', 'r', 'u'] t1 then
      completeTok ['t', 'r', 'u'] ['t', 'r', 'u', 'e'] t1
    else if endsWithTok ['f', 'a', 'l', 's'] t1 then
      completeTok ['f', 'a', 'l', 's'] ['f', 'a', 'l', 's', 'e'] t1
    else if endsWithTok ['n', 'u', 'l'] t1 then
      completeTok ['n', 'u', 'l'] ['n', 'u', 'l', 'l'] t1
    else
      let ta := dangling_kv_sub t1
      trailing_comma_end_sub (ta.length + 1) ta
  t2 ++ stackScanGo [] false false t2

/-- `safe_repair` from repair.py. -/
def safe_repair (json_text : List Char) (state : Option JsonFsmState) : List Char :=
  if json_text = [] then json_text
  else
    let t1 := fix_unquoted_keys json_text
    let t2 := fix_quote_types t1
    let t3 := fix_unescaped_quotes t2
    let t4 := remove_trailing_commas t3
    match state with
    | some st =>
      if st.state ≠ Phase.DONE ∧ 0 < st.depth then truncation_complete t4 st else t4
    | none => t4

/-- `JSONStreamProcessor` from stream_processor.py: one preprocessor state and
one FSM state per request, plus the accumulated cleaned content. -/
structure Processor where
  preprocess_state : PreprocessState := {}
  fsm_state : JsonFsmState := {}
  accumulated_content : List Char := []

/-- `JSONStreamProcessor.process_chunk`: preprocess, feed any emission to the
FSM, accumulate, and return the processed chunk. -/
def processor_chunk (p : Processor) (chunk : List Char) : Processor × List Char :=
  let (pp', processed) := preprocess_chunk chunk p.preprocess_state
  let fsm' := if processed ≠ [] then fsm_feed p.fsm_state processed else p.fsm_state
  ({ preprocess_state := pp', fsm_state := fsm',
     accumulated_content := p.accumulated_content ++ processed }, processed)

/-- The dictionary returned by `JSONStreamProcessor.finalize_extraction`
(`json_text`/`repaired_text` are `None` on the failure path, exactly as the
Python dict holds `None`). -/
structure FinalExtraction where
  status : Status
  json_text : Option (List Char)
  repaired_text : Option (List Char)
  parse_ok : Bool
deriving Repr, DecidableEq

/-- `JSONStreamProcessor.finalize_extraction`: feed the preprocessor tail to
the FSM, finalize, read the result, and repair unless the extracted text is
empty. -/
def finalize_extraction (p : Processor) : Processor × FinalExtraction :=
  let (pp', tail) := preprocess_finalize p.preprocess_state
  let f1 := if tail ≠ [] then fsm_feed p.fsm_state tail else p.fsm_state
  let f2 := fsm_finalize f1
  let (json_text, status) := fsm_result f2
  let p' := { p with preprocess_state := pp', fsm_state := f2 }
  if json_text = [] then
    (p', { status := Status.FAILED, json_text := none, repaired_text := none,
           parse_ok := false })
  else
    let repaired := safe_repair json_text (some f2)
    (p', { status := status, json_text := some json_text,
           repaired_text := some repaired, parse_ok := jsonValid repaired })

/-- The entry `StreamFixer.process_stream` writes into the module-level
`repair_results` dict on `[DONE]`. -/
structure StoredResult where
  status : String
  original_json : Option (List Char)
  repaired_json : Option (List Char)
  parse_ok : Bool
deriving Repr, DecidableEq

/-- The `repair_results[self.request_id] = {...}` record construction of
`StreamFixer.process_stream`: status `"REPAIRED"` only when the repaired text
parses, is truthy, and differs from the extracted text; `"PASSTHROUGH"`
otherwise. -/
def mkStored (fe : FinalExtraction) : StoredResult :=
  let repairedTruthy : Bool := match fe.repaired_text with
    | some r => ! r.isEmpty
    | none => false
  { status :=
      if fe.parse_ok ∧ repairedTruthy ∧ fe.json_text ≠ fe.repaired_text then
        "REPAIRED"
      else "PASSTHROUGH",
    original_json := fe.json_text,
    repaired_json := fe.repaired_text,
    parse_ok := fe.parse_ok }

/-- Last-occurrence lookup in a parsed JSON object — `json.loads` builds a
dict in which a repeated key keeps its last value. -/
def jlookupLast (ms : List (List Char × Json)) (k : List Char) : Option Json :=
  ms.foldl (fun acc kv => if kv.1 = k then some kv.2 else acc) none

def keyChoices : List Char := ['c', 'h', 'o', 'i', 'c', 'e', 's']

def keyDelta : List Char := ['d', 'e', 'l', 't', 'a']

def keyContent : List Char := ['c', 'o', 'n', 't', 'e', 'n', 't']

/-- `choices[0].delta.content` navigation of `StreamFixer.process_stream`.
Returns the string to feed the processor (`[]` for an explicit `null`, which
Python turns into `""` through `text or ""`), or `none` when the event carries
no content delta. -/
def deltaContent (v : Json) : Option (List Char) :=
  match v with
  | Json.jobj ms =>
    match jlookupLast ms keyChoices with
    | some (Json.jarr (c0 :: _)) =>
      match c0 with
      | Json.jobj cms =>
        match jlookupLast cms keyDelta with
        | some (Json.jobj dms) =>
          match jlookupLast dms keyContent with
          | some (Json.jstr s) => some s
          | some Json.jnull => some []
          | _ => none
        | _ => none
      | _ => none
    | _ => none
  | _ => none

/-- Events on which the Python delta-extraction code runs without raising an
uncaught exception (only `json.JSONDecodeError` is caught in the source): the
payload is an object, `choices` if present is an array, its head if inspected
is an object, `delta` if present is an object, and `content` if present is a
string or null.  Malformed shapes would kill the Python generator and are
outside this model. -/
def eventOk (v : Json) : Bool :=
  match v with
  | Json.jobj ms =>
    match jlookupLast ms keyChoices with
    | none => true
    | some (Json.jarr []) => true
    | some (Json.jarr (c0 :: _)) =>
      match c0 with
      | Json.jobj cms =>
        match jlookupLast cms keyDelta with
        | none => true
        | some (Json.jobj dms) =>
          match jlookupLast dms keyContent with
          | none => true
          | some (Json.jstr _) => true
          | some Json.jnull => true
          | some _ => false
        | some _ => false
      | _ => false
    | some _ => false
  | _ => false

/-- Feed one parsed SSE event to the processor. -/
def feedEvent (p : Processor) (v : Json) : Processor :=
  match deltaContent v with
  | some s => (processor_chunk p s).1
  | none => p

/-- Per-request state of `StreamFixer`: the processor plus the request's slot
in `repair_results`. -/
structure StreamState where
  processor : Processor := {}
  stored : Option StoredResult := none

def dataPrefixTok : List Char := ['d', 'a', 't', 'a', ':', ' ']

def doneTok : List Char := ['[', 'D', 'O', 'N', 'E', ']']

/-- The body of the `async for chunk` loop of `StreamFixer.process_stream`,
minus the unconditional `yield` (handled by `process_stream` below): skip
blank chunks, inspect `data: ` lines, finalize and store on `[DONE]`, feed
content deltas of parseable events, ignore unparseable ones. -/
def handleChunk (st : StreamState) (chunk : List Char) : StreamState :=
  if pyStrip chunk = [] then st
  else if dataPrefixTok.isPrefixOf chunk then
    let data_part := pyStrip (chunk.drop 6)
    if data_part = doneTok then
      let (p', fe) := finalize_extraction st.processor
      { processor := p', stored := some (mkStored fe) }
    else
      match jsonParse data_part with
      | some v => { st with processor := feedEvent st.processor v }
      | none => st
  else st

/-- `StreamFixer.process_stream` over a list of upstream chunks: every chunk
is yielded downstream before being inspected; the final state carries the
stored artifact. -/
def process_stream (st : StreamState) :
    List (List Char) → List (List Char) × StreamState
  | [] => ([], st)
  | c :: cs =>
    let st' := handleChunk st c
    let (outs, stF) := process_stream st' cs
    (c :: outs, stF)

/-- `MAX_ARTIFACTS = 100` from chat_noauth.py. -/
def MAX_ARTIFACTS : Nat := 100

/-- An artifact of the non-streaming path (chat_noauth.py).  Request ids
(uuid strings in the source) and ISO timestamps (strings increasing with
wall-clock time) are abstracted to naturals. -/
structure NoauthArtifact where
  request_id : Nat
  timestamp : Nat
  original_content : List Char
  repaired_content : List Char
  remove_trailing_comma_flag : Bool
  quote_unquoted_keys_flag : Bool
  parse_success : Bool
  status : String
deriving Repr, DecidableEq

/-- The artifact construction of `store_repair_artifact`: repair with no FSM
state, the two (buggy-but-faithful) repair-detection flags, the parse check
that skips blank results, and the `REPAIRED`/`PASSTHROUGH` status. -/
def mkNoauthArtifact (request_id timestamp : Nat) (content : List Char) :
    NoauthArtifact :=
  let repaired := if content = [] then content else safe_repair content none
  let rtcFlag := content ≠ repaired ∧ content.contains ',' ∧
    ¬ (repaired.filter (· ≠ ',')).contains ','
  let qukFlag := content ≠ repaired ∧ content.contains '{' ∧
    ¬ (content.takeWhile (· ≠ ':')).contains quoteC
  { request_id := request_id, timestamp := timestamp,
    original_content := content, repaired_content := repaired,
    remove_trailing_comma_flag := rtcFlag, quote_unquoted_keys_flag := qukFlag,
    parse_success := if pyStrip repaired ≠ [] then jsonValid repaired else true,
    status := if rtcFlag ∨ qukFlag then "REPAIRED" else "PASSTHROUGH" }

/-- The eviction step of `store_repair_artifact`: delete the entry whose
timestamp is minimal (`min` over insertion order, first minimum wins). -/
def store_evict (store : List NoauthArtifact) : List NoauthArtifact :=
  match store with
  | [] => []
  | first :: _ =>
    let mints := store.foldl
      (fun m x => if x.timestamp < m then x.timestamp else m) first.timestamp
    store.eraseP (fun x => x.timestamp = mints)

/-- The `repair_artifacts[request_id] = artifact` assignment: dict semantics —
a fresh id appends, an existing id is updated in place. -/
def store_upsert (store : List NoauthArtifact) (a : NoauthArtifact) :
    List NoauthArtifact :=
  if store.any (fun x => x.request_id = a.request_id) then
    store.map fun x => if x.request_id = a.request_id then a else x
  else store ++ [a]

/-- The eviction-then-assign tail of `store_repair_artifact`: evict the
oldest artifact when the store is full, then assign. -/
def store_insert (store : List NoauthArtifact) (a : NoauthArtifact) :
    List NoauthArtifact :=
  store_upsert (if MAX_ARTIFACTS ≤ store.length then store_evict store else store) a

/-- `store_repair_artifact` from chat_noauth.py: build the artifact and insert
it into the bounded `repair_artifacts` store. -/
def store_repair_artifact (store : List NoauthArtifact)
    (request_id timestamp : Nat) (content : List Char) : List NoauthArtifact :=
  store_insert store (mkNoauthArtifact request_id timestamp content)

/-- The `repair_results[request_id] = {...}` assignment of
stream_processor.py: a plain dict write with no capacity bound (request ids
abstracted to naturals). -/
def repair_results_insert (store : List (Nat × StoredResult)) (id : Nat)
    (r : StoredResult) : List (Nat × StoredResult) :=
  if store.any (fun e => e.1 = id) then
    store.map fun e => if e.1 = id then (id, r) else e
  else store ++ [(id, r)]

/-- The response of the `/test` endpoint (streamfix.py), error text omitted. -/
structure RepairTestResult where
  success : Bool
  original : List Char
  repaired : List Char
  valid_json : Bool
deriving Repr, DecidableEq

/-- `test_json_repair` from streamfix.py: return valid input unchanged,
otherwise run the preprocessing/extraction pipeline and repair the extracted
text with the FSM state — or fall back to `safe_repair(broken_json)` with no
state when extraction produced nothing usable. -/
def test_json_repair (broken_json : List Char) : RepairTestResult :=
  if jsonValid broken_json then
    { success := true, original := broken_json, repaired := broken_json,
      valid_json := true }
  else
    let (ps1, extracted) := preprocess_chunk broken_json {}
    let f1 := if extracted ≠ [] then fsm_feed {} extracted else ({} : JsonFsmState)
    let finalExtracted := (preprocess_finalize ps1).2
    let f2 := if finalExtracted ≠ [] then fsm_feed f1 finalExtracted else f1
    let f3 := fsm_finalize f2
    let (extracted_json, fsm_status) := fsm_result f3
    let repaired :=
      if (fsm_status = Status.DONE ∨ fsm_status = Status.TRUNCATED) ∧
          pyStrip extracted_json ≠ [] then
        safe_repair extracted_json (some f3)
      else safe_repair broken_json none
    { success := jsonValid repaired, original := broken_json,
      repaired := repaired, valid_json := jsonValid repaired }

/-- Body of a JSON string literal as the extraction FSM scans it: any
character other than an unescaped quote, where a backslash escapes exactly
one following character. -/
inductive StrBody : List Char → Prop
  | nil : StrBody []
  | plain {c : Char} {l : List Char} : c ≠ quoteC → c ≠ backslashC →
      StrBody l → StrBody (c :: l)
  | esc {c : Char} {l : List Char} : StrBody l → StrBody (backslashC :: c :: l)

/-- Interior of a balanced JSON root at a fixed depth: a sequence of
non-structural characters, complete string literals, and complete balanced
sub-objects/sub-arrays. -/
inductive RootSeq : List Char → Prop
  | nil : RootSeq []
  | plain {c : Char} {l : List Char} :
      c ≠ '{' → c ≠ '}' → c ≠ '[' → c ≠ ']' → c ≠ quoteC →
      RootSeq l → RootSeq (c :: l)
  | str {s l : List Char} : StrBody s → RootSeq l →
      RootSeq (quoteC :: s ++ quoteC :: l)
  | obj {m l : List Char} : RootSeq m → RootSeq l →
      RootSeq ('{' :: m ++ '}' :: l)
  | arr {m l : List Char} : RootSeq m → RootSeq l →
      RootSeq ('[' :: m ++ ']' :: l)

/-- A balanced JSON object or array: an opening delimiter, a well-formed
interior, and the matching closing delimiter. -/
def BalancedRoot (b : List Char) : Prop :=
  ∃ m, RootSeq m ∧ (b = '{' :: m ++ ['}'] ∨ b = '[' :: m ++ [']'])

/-- Chunks on which the Python SSE loop runs without an uncaught exception:
any non-`data: ` line, any unparseable `data: ` payload, `[DONE]`, or a
parseable payload of a benign shape (`eventOk`). -/
def benignChunk (chunk : List Char) : Bool :=
  if pyStrip chunk = [] then true
  else if dataPrefixTok.isPrefixOf chunk then
    let data_part := pyStrip (chunk.drop 6)
    if data_part = doneTok then true
    else
      match jsonParse data_part with
      | some v => eventOk v
      | none => true
  else true


/-- The SSE line `data: ...` carrying the content delta \x7b"choices": [\x7b"delta": \x7b"content": "(fenced json)"...: an assistant message consisting solely of a ```json fence (with no newline) around a JSON object. -/
def c9Chunk1 : List Char :=
  ['d', 'a', 't', 'a', ':', ' ', '{', quoteC, 'c', 'h', 'o', 'i', 'c', 'e', 's', quoteC, ':', ' ', '[', '{', quoteC, 'd', 'e', 'l', 't', 'a', quoteC, ':', ' ', '{', quoteC, 'c', 'o', 'n', 't', 'e', 'n', 't', quoteC, ':', ' ', quoteC, btickC, btickC, btickC, 'j', 's', 'o', 'n', '{', backslashC, quoteC, 'a', backslashC, quoteC, ':', ' ', '1', '}', btickC, btickC, btickC, quoteC, '}', '}', ']', '}']

/-- The SSE terminator line. -/
def c9Chunk2 : List Char :=
  ['d', 'a', 't', 'a', ':', ' ', '[', 'D', 'O', 'N', 'E', ']']

/-- The content delta carried by `c9Chunk1`: a ```json fence with no newline around an intended JSON object. -/
def c9Content : List Char :=
  [btickC, btickC, btickC, 'j', 's', 'o', 'n', '{', quoteC, 'a', quoteC, ':', ' ', '1', '}', btickC, btickC, btickC]

/-!
Theorems.  Helper lemmas come first, then one theorem per claim (with its
witness or counterexample where required).
-/

theorem fsm_feed_cons (s : JsonFsmState) (root : Option RootHint) (c : Char)
    (cs : List Char) :
    fsm_feed s (c :: cs) root = fsm_feed (fsm_step root s c) cs root := rfl

theorem fsm_step_terminal (root : Option RootHint) (s : JsonFsmState) (ch : Char)
    (h : s.state = Phase.DONE ∨ s.state = Phase.FAILED) :
    fsm_step root s ch = s := by
  unfold fsm_step
  rw [if_pos h]

theorem fsm_feed_terminal (s : JsonFsmState) (text : List Char)
    (root : Option RootHint)
    (h : s.state = Phase.DONE ∨ s.state = Phase.FAILED) :
    fsm_feed s text root = s := by
  induction text with
  | nil => rfl
  | cons c cs ih =>
    rw [fsm_feed_cons, fsm_step_terminal root s c h]
    exact ih

set_option maxHeartbeats 1000000 in
theorem fsm_step_inv (root : Option RootHint) (s : JsonFsmState) (ch : Char)
    (h0 : 0 ≤ s.depth) (h1 : s.state = Phase.IN_JSON → 1 ≤ s.depth) :
    0 ≤ (fsm_step root s ch).depth ∧
      ((fsm_step root s ch).state = Phase.IN_JSON → 1 ≤ (fsm_step root s ch).depth) := by
  cases hst : s.state <;>
    (unfold fsm_step; dsimp only; split_ifs <;> simp_all <;> omega)

theorem fsm_feed_inv (text : List Char) (root : Option RootHint) :
    ∀ s : JsonFsmState, 0 ≤ s.depth → (s.state = Phase.IN_JSON → 1 ≤ s.depth) →
      0 ≤ (fsm_feed s text root).depth ∧
        ((fsm_feed s text root).state = Phase.IN_JSON → 1 ≤ (fsm_feed s text root).depth) := by
  induction text with
  | nil => exact fun s h0 h1 => ⟨h0, h1⟩
  | cons c cs ih =>
    intro s h0 h1
    rw [fsm_feed_cons]
    exact ih _ (fsm_step_inv root s c h0 h1).1 (fsm_step_inv root s c h0 h1).2

/-- C7: for any byte sequence fed to `fsm_feed`, the depth stays non-negative
after every step, the FSM is never in `IN_JSON` with depth `0` (the instant a
closing delimiter brings the depth to `0` the phase becomes `DONE`), and the
`DONE` and `FAILED` phases are absorbing: feeding a terminal state returns it
entirely unchanged. -/
theorem c7_extraction_state_invariant (s : JsonFsmState) (text : List Char)
    (root : Option RootHint) (h0 : 0 ≤ s.depth)
    (h1 : s.state = Phase.IN_JSON → 1 ≤ s.depth) :
    (0 ≤ (fsm_feed s text root).depth ∧
      ((fsm_feed s text root).state = Phase.IN_JSON →
        1 ≤ (fsm_feed s text root).depth)) ∧
    (s.state = Phase.DONE ∨ s.state = Phase.FAILED → fsm_feed s text root = s) :=
  ⟨fsm_feed_inv text root s h0 h1, fun h => fsm_feed_terminal s text root h⟩

/-- Witness for C7 at concrete inputs: the invariant after feeding
`xx{[]{"a"}` from the fresh state, and absorption on a state that has reached
`DONE`. -/
theorem c7_extraction_state_invariant_witness :
    (0 ≤ (fsm_feed {} ['x', '{', '[', ']', '}'] none).depth ∧
      ((fsm_feed {} ['x', '{', '[', ']', '}'] none).state = Phase.IN_JSON →
        1 ≤ (fsm_feed {} ['x', '{', '[', ']', '}'] none).depth)) ∧
    ((fsm_feed {} ['{', '}'] none).state = Phase.DONE ∨
        (fsm_feed {} ['{', '}'] none).state = Phase.FAILED →
      fsm_feed (fsm_feed {} ['{', '}'] none) ['x', '}'] none = fsm_feed {} ['{', '}'] none) :=
  ⟨(c7_extraction_state_invariant {} ['x', '{', '[', ']', '}'] none (by decide)
      (by decide)).1,
   (c7_extraction_state_invariant (fsm_feed {} ['{', '}'] none) ['x', '}'] none
      (by decide) (by decide)).2⟩


set_option maxHeartbeats 1000000 in
theorem fsm_step_noquote_inv (root : Option RootHint) (s : JsonFsmState) (ch : Char)
    (hch : ch ≠ quoteC) (hmax : 2 ≤ s.max_chars)
    (hb : s.buf.length ≤ s.max_chars)
    (hj : s.state = Phase.IN_JSON → s.buf.length < s.max_chars ∧ s.in_string = false)
    (hs : s.state = Phase.SEEK_START → s.buf = [] ∧ s.in_string = false) :
    (fsm_step root s ch).max_chars = s.max_chars ∧
    (fsm_step root s ch).buf.length ≤ s.max_chars ∧
    ((fsm_step root s ch).state = Phase.IN_JSON →
      (fsm_step root s ch).buf.length < s.max_chars ∧
        (fsm_step root s ch).in_string = false) ∧
    ((fsm_step root s ch).state = Phase.SEEK_START →
      (fsm_step root s ch).buf = [] ∧ (fsm_step root s ch).in_string = false) := by
  cases hst : s.state with
  | SEEK_START =>
    have hb0 := hs hst
    unfold fsm_step
    dsimp only
    split_ifs <;> simp_all <;> omega
  | IN_JSON =>
    have hj' := hj hst
    unfold fsm_step
    dsimp only
    split_ifs <;> simp_all <;> omega
  | DONE =>
    unfold fsm_step
    dsimp only
    rw [if_pos (Or.inl hst)]
    exact ⟨rfl, hb, fun h => hj h, fun h => hs h⟩
  | FAILED =>
    unfold fsm_step
    dsimp only
    rw [if_pos (Or.inr hst)]
    exact ⟨rfl, hb, fun h => hj h, fun h => hs h⟩

theorem fsm_feed_noquote_inv (text : List Char) (root : Option RootHint) :
    ∀ s : JsonFsmState, (∀ c ∈ text, c ≠ quoteC) → 2 ≤ s.max_chars →
      s.buf.length ≤ s.max_chars →
      (s.state = Phase.IN_JSON → s.buf.length < s.max_chars ∧ s.in_string = false) →
      (s.state = Phase.SEEK_START → s.buf = [] ∧ s.in_string = false) →
      (fsm_feed s text root).max_chars = s.max_chars ∧
      (fsm_feed s text root).buf.length ≤ s.max_chars ∧
      ((fsm_feed s text root).state = Phase.IN_JSON →
        (fsm_feed s text root).buf.length < s.max_chars) := by
  induction text with
  | nil => exact fun s _ _ hb hj _ => ⟨rfl, hb, fun h => (hj h).1⟩
  | cons c cs ih =>
    intro s htext hmax hb hj hs
    have hstep := fsm_step_noquote_inv root s c (htext c (by simp)) hmax hb hj hs
    have hrec := ih (fsm_step root s c) (fun d hd => htext d (by simp [hd]))
      (hstep.1 ▸ hmax) (hstep.1 ▸ hstep.2.1)
      (by rw [hstep.1]; exact hstep.2.2.1) hstep.2.2.2
    rw [fsm_feed_cons]
    exact ⟨hrec.1.trans hstep.1, hstep.1 ▸ hrec.2.1, hstep.1 ▸ hrec.2.2⟩

/-- C4 amended: on input that contains no double quote (so the FSM never
enters a string literal), the buffer does stay within `max_chars`: after
feeding any such text from a fresh state with `max_chars ≥ 2`,
`|buf| ≤ max_chars` holds, strictly while still `IN_JSON`.  Bytes consumed
inside string literals bypass the bound check (see the counterexample), so
the no-quote hypothesis is what the code actually enforces. -/
theorem c4_buf_bound_outside_strings (text : List Char) (maxc : Nat)
    (root : Option RootHint) (hmax : 2 ≤ maxc) (htext : ∀ c ∈ text, c ≠ quoteC) :
    (fsm_feed { max_chars := maxc } text root).buf.length ≤ maxc ∧
    ((fsm_feed { max_chars := maxc } text root).state = Phase.IN_JSON →
      (fsm_feed { max_chars := maxc } text root).buf.length < maxc) := by
  have h := fsm_feed_noquote_inv text root { max_chars := maxc } htext hmax
    (by simp) (by intro h; simp at h) (fun _ => ⟨rfl, rfl⟩)
  exact ⟨h.2.1, h.2.2⟩

/-- Witness for C4's amended theorem: feeding `x{[a]` with `max_chars = 4`. -/
theorem c4_buf_bound_outside_strings_witness :
    2 ≤ 4 ∧ (∀ c ∈ ['x', '{', '[', 'a', ']'], c ≠ quoteC) ∧
    ((fsm_feed { max_chars := 4 } ['x', '{', '[', 'a', ']'] none).buf.length ≤ 4 ∧
      ((fsm_feed { max_chars := 4 } ['x', '{', '[', 'a', ']'] none).state = Phase.IN_JSON →
        (fsm_feed { max_chars := 4 } ['x', '{', '[', 'a', ']'] none).buf.length < 4)) :=
  ⟨by decide, by decide,
    c4_buf_bound_outside_strings ['x', '{', '[', 'a', ']'] 4 none (by decide) (by decide)⟩

/-- C4 counterexample: with `max_chars = 5`, feeding `{"abcdefg` leaves the
FSM in `IN_JSON` (not `FAILED`) with a 9-character buffer — the bound check is
skipped for bytes consumed inside a string literal, refuting the claim that
`|buf| ≤ max_chars` holds after every step and that `|buf| ≥ max_chars`
forces `FAILED` on any byte. -/
theorem c4_counterexample :
    (fsm_feed { max_chars := 5 }
        ('{' :: quoteC :: ['a', 'b', 'c', 'd', 'e', 'f', 'g']) none).max_chars <
      (fsm_feed { max_chars := 5 }
        ('{' :: quoteC :: ['a', 'b', 'c', 'd', 'e', 'f', 'g']) none).buf.length ∧
    (fsm_feed { max_chars := 5 }
        ('{' :: quoteC :: ['a', 'b', 'c', 'd', 'e', 'f', 'g']) none).state ≠
      Phase.FAILED := by decide

/-- C5 amended: `fsm_result` returns `(buf, DONE)` on a `DONE` state; on an
`IN_JSON` state that went through `fsm_finalize` it returns `buf` with `DONE`
exactly when the stream ended outside a string literal with a non-empty
buffer, `TRUNCATED` otherwise; and in the `FAILED` and `SEEK_START` phases it
returns the empty string (not `buf`) with status `FAILED`. -/
theorem c5_result_mapping (s : JsonFsmState) :
    (s.state = Phase.DONE → fsm_result s = (s.buf, Status.DONE)) ∧
    (s.state = Phase.IN_JSON →
      fsm_result (fsm_finalize s) =
        (s.buf, if s.in_string = false ∧ s.buf ≠ [] then Status.DONE
                else Status.TRUNCATED)) ∧
    (s.state = Phase.SEEK_START ∨ s.state = Phase.FAILED →
      fsm_result s = ([], Status.FAILED)) := by
  refine ⟨fun h => ?_, fun h => ?_, fun h => ?_⟩
  · unfold fsm_result
    rw [if_pos h]
  · by_cases hin : s.in_string
    · simp [fsm_finalize, fsm_result, h, hin]
    · by_cases hbuf : s.buf = [] <;> simp [fsm_finalize, fsm_result, h, hin, hbuf]
  · rcases h with h | h <;> simp [fsm_result, h]

/-- Witness for C5's amended theorem: a finalized truncated object upgrades to
`DONE` with its buffer, and a state that `FAILED` on the bound returns the
empty string. -/
theorem c5_result_mapping_witness :
    fsm_result (fsm_finalize (fsm_feed {} ['{', '1'] none)) =
      ((fsm_feed {} ['{', '1'] none).buf,
        if (fsm_feed {} ['{', '1'] none).in_string = false ∧
            (fsm_feed {} ['{', '1'] none).buf ≠ [] then Status.DONE
        else Status.TRUNCATED) ∧
    fsm_result (fsm_feed { max_chars := 3 } ['{', 'a', 'a', 'a'] none) =
      ([], Status.FAILED) :=
  ⟨(c5_result_mapping (fsm_feed {} ['{', '1'] none)).2.1 (by decide),
   (c5_result_mapping (fsm_feed { max_chars := 3 } ['{', 'a', 'a', 'a'] none)).2.2
     (Or.inr (by decide))⟩

/-- C5 counterexample: a state that reached `FAILED` on the buffer bound has a
non-empty `buf` (here `{aa`), yet `fsm_result` returns the empty string — so
the returned pair is not `(buf, status)` in every case, refuting the claim. -/
theorem c5_counterexample :
    (fsm_result (fsm_feed { max_chars := 3 } ['{', 'a', 'a', 'a'] none)).1 ≠
      (fsm_feed { max_chars := 3 } ['{', 'a', 'a', 'a'] none).buf ∧
    (fsm_feed { max_chars := 3 } ['{', 'a', 'a', 'a'] none).buf ≠ [] ∧
    (fsm_result (fsm_feed { max_chars := 3 } ['{', 'a', 'a', 'a'] none)).2 =
      Status.FAILED := by decide

/-- C1 (code bug witness): the chunking `["XXXXX<think>s<", "/think>YYYYYYYY"]`
of the text `XXXXX<think>s</think>YYYYYYYY` diverges from feeding the same
text as a single chunk.  The `<think>` marker straddles the internal
body/carry cut of the first `preprocess_chunk` call (the scan checks
`startswith` against the body only), so the chunked run emits the reasoning
region verbatim while the single-chunk run elides it. -/
theorem c1_chunk_boundary_divergence :
    runChunks
        [['X', 'X', 'X', 'X', 'X', '<', 't', 'h', 'i', 'n', 'k', '>', 's', '<'],
         ['/', 't', 'h', 'i', 'n', 'k', '>', 'Y', 'Y', 'Y', 'Y', 'Y', 'Y', 'Y', 'Y']] =
      ['X', 'X', 'X', 'X', 'X', '<', 't', 'h', 'i', 'n', 'k', '>', 's', '<',
       '/', 't', 'h', 'i', 'n', 'k', '>', 'Y', 'Y', 'Y', 'Y', 'Y', 'Y', 'Y', 'Y'] ∧
    runChunks
        [['X', 'X', 'X', 'X', 'X', '<', 't', 'h', 'i', 'n', 'k', '>', 's', '<',
          '/', 't', 'h', 'i', 'n', 'k', '>', 'Y', 'Y', 'Y', 'Y', 'Y', 'Y', 'Y', 'Y']] =
      ['X', 'X', 'X', 'X', 'X', 'Y', 'Y', 'Y', 'Y', 'Y', 'Y', 'Y', 'Y'] ∧
    runChunks
        [['X', 'X', 'X', 'X', 'X', '<', 't', 'h', 'i', 'n', 'k', '>', 's', '<'],
         ['/', 't', 'h', 'i', 'n', 'k', '>', 'Y', 'Y', 'Y', 'Y', 'Y', 'Y', 'Y', 'Y']] ≠
      runChunks
        [['X', 'X', 'X', 'X', 'X', '<', 't', 'h', 'i', 'n', 'k', '>', 's', '<',
          '/', 't', 'h', 'i', 'n', 'k', '>', 'Y', 'Y', 'Y', 'Y', 'Y', 'Y', 'Y', 'Y']] := by
  decide

theorem fix_quote_types_of_no_squote (t : List Char) (h : ∀ c ∈ t, c ≠ squoteC) :
    fix_quote_types t = t := by
  induction t with
  | nil => rfl
  | cons c cs ih =>
    have h1 : (if c = squoteC then quoteC else c) = c :=
      if_neg (h c (by simp))
    calc fix_quote_types (c :: cs)
        = (if c = squoteC then quoteC else c) :: fix_quote_types cs := rfl
      _ = c :: cs := by rw [h1, ih fun d hd => h d (by simp [hd])]

theorem fix_unescaped_quotes_of_valid (t : List Char) (h : jsonValid t = true) :
    fix_unescaped_quotes t = t := by
  unfold fix_unescaped_quotes
  rw [if_pos h]

/-- C2 amended: `safe_repair` with no FSM state is the identity on a
parseable input provided the input additionally contains no single quote and
is untouched by the key-quoting and trailing-comma scans.  Without those extra
hypotheses the claim fails: the quote-replacement pass rewrites apostrophes
inside valid JSON strings (see the counterexample). -/
theorem c2_repair_identity_on_valid (t : List Char)
    (hvalid : jsonValid t = true)
    (hsq : ∀ c ∈ t, c ≠ squoteC)
    (hkeys : fix_unquoted_keys t = t)
    (hcommas : remove_trailing_commas t = t) :
    safe_repair t none = t := by
  unfold safe_repair
  split_ifs with h0
  · rfl
  · dsimp only
    rw [hkeys, fix_quote_types_of_no_squote t hsq, fix_unescaped_quotes_of_valid t hvalid]
    exact hcommas

/-- Witness for C2's amended theorem at the valid input `"a"`. -/
theorem c2_repair_identity_on_valid_witness :
    jsonValid [quoteC, 'a', quoteC] = true ∧
    (∀ c ∈ [quoteC, 'a', quoteC], c ≠ squoteC) ∧
    fix_unquoted_keys [quoteC, 'a', quoteC] = [quoteC, 'a', quoteC] ∧
    remove_trailing_commas [quoteC, 'a', quoteC] = [quoteC, 'a', quoteC] ∧
    safe_repair [quoteC, 'a', quoteC] none = [quoteC, 'a', quoteC] :=
  ⟨by decide, by decide, by decide, by decide,
    c2_repair_identity_on_valid [quoteC, 'a', quoteC] (by decide) (by decide)
      (by decide) (by decide)⟩

/-- C2 counterexample: the input `"a'b"` is valid JSON (a string containing
an apostrophe), yet `safe_repair` rewrites the apostrophe to a double quote
and returns a different (and no longer parseable) string — refuting
`RP(T) == T` on valid input. -/
theorem c2_counterexample :
    jsonValid [quoteC, 'a', squoteC, 'b', quoteC] = true ∧
    safe_repair [quoteC, 'a', squoteC, 'b', quoteC] none ≠
      [quoteC, 'a', squoteC, 'b', quoteC] := by decide

/-- C3 amended: only the unescaped-quote pass carries a revert guard — for
every input it either returns the input unchanged or returns a string that
parses.  `safe_repair` as a whole has no such fallback: the other passes can
return a modified string that still fails to parse (see the counterexample). -/
theorem c3_unescaped_pass_guard (t : List Char) :
    fix_unescaped_quotes t = t ∨ jsonValid (fix_unescaped_quotes t) = true := by
  unfold fix_unescaped_quotes
  by_cases h1 : jsonValid t = true
  · rw [if_pos h1]
    exact Or.inl rfl
  · rw [if_neg h1]
    dsimp only
    split_ifs with h2 h3
    · exact Or.inr h3
    · exact Or.inl rfl
    · exact Or.inl rfl

/-- C3 counterexample: `{a: b c}` fails to parse; `safe_repair` returns the
different string `{"a": b c}`, which still fails to parse — so the output is
neither parseable nor the input returned unchanged. -/
theorem c3_counterexample :
    jsonValid ['{', 'a', ':', ' ', 'b', ' ', 'c', '}'] = false ∧
    safe_repair ['{', 'a', ':', ' ', 'b', ' ', 'c', '}'] none ≠
      ['{', 'a', ':', ' ', 'b', ' ', 'c', '}'] ∧
    jsonValid (safe_repair ['{', 'a', ':', ' ', 'b', ' ', 'c', '}'] none) = false := by
  decide

theorem dropWhile_head_not {α : Type} (p : α → Bool) :
    ∀ (l : List α) (x : α) (xs : List α), l.dropWhile p = x :: xs → p x = false := by
  intro l
  induction l with
  | nil => intro x xs h; cases h
  | cons a t ih =>
    intro x xs h
    rw [List.dropWhile_cons] at h
    split_ifs at h with ha
    · exact ih x xs h
    · cases h
      simpa using ha

theorem count_eq_zero_of_all {c : Char} {l : List Char} {p : Char → Bool}
    (hl : ∀ d ∈ l, p d = true) (hc : p c = false) : List.count c l = 0 :=
  List.count_eq_zero.mpr fun hmem => by
    have := hl c hmem
    rw [this] at hc
    cases hc

theorem count_dropWhile_of_not {c : Char} (p : Char → Bool) (hc : p c = false) :
    ∀ l : List Char, List.count c (l.dropWhile p) = List.count c l := by
  intro l
  induction l with
  | nil => rfl
  | cons a t ih =>
    rw [List.dropWhile_cons]
    split_ifs with ha
    · rw [ih, List.count_cons]
      have : (a == c) = false := by
        refine beq_eq_false_iff_ne.mpr fun he => ?_
        rw [he] at ha
        rw [ha] at hc
        cases hc
      rw [this]
      simp
    · rfl

theorem count_pyStrip (c : Char) (hc : pyIsSpace c = false) (l : List Char) :
    List.count c (pyStrip l) = List.count c l := by
  unfold pyStrip
  rw [List.count_reverse, count_dropWhile_of_not pyIsSpace hc,
    List.count_reverse, count_dropWhile_of_not pyIsSpace hc]


theorem count_escape_flatMap (c : Char) (hq : c ≠ quoteC) (hbs : c ≠ backslashC) :
    ∀ l : List Char,
      List.count c (l.flatMap fun d => if d = quoteC then [backslashC, quoteC] else [d]) =
        List.count c l := by
  have hqc : (quoteC == c) = false := beq_eq_false_iff_ne.mpr fun h => hq h.symm
  have hbc : (backslashC == c) = false := beq_eq_false_iff_ne.mpr fun h => hbs h.symm
  intro l
  induction l with
  | nil => rfl
  | cons a t ih =>
    rw [List.flatMap_cons, List.count_append, ih]
    by_cases ha : a = quoteC
    · subst ha
      simp [List.count_cons, hqc, hbc]
    · simp [ha, List.count_singleton, List.count_cons, Nat.add_comm]

theorem count_fix_kv_pair (kv : List Char) (c : Char) (hq : c ≠ quoteC)
    (hbs : c ≠ backslashC) (hsp : pyIsSpace c = false) :
    List.count c (fix_kv_pair kv) = List.count c kv := by
  have hqc : (quoteC == c) = false := beq_eq_false_iff_ne.mpr fun h => hq h.symm
  have hspc : (' ' == c) = false := by
    refine beq_eq_false_iff_ne.mpr fun h => ?_
    rw [← h] at hsp
    exact absurd hsp (by decide)
  unfold fix_kv_pair
  by_cases h1 : (¬ kv.contains ':' = true)
  · rw [if_pos h1]
  rw [if_neg h1]
  dsimp only
  split_ifs with h2
  case neg => rfl
  obtain ⟨hh, hl, hcnt⟩ := h2
  have hmem : ':' ∈ kv := by
    have := not_not.mp h1
    simpa using this
  -- kv = pre ++ ':' :: mid
  obtain ⟨d, mid, hD⟩ : ∃ d mid, kv.dropWhile (fun x => x ≠ ':') = d :: mid := by
    cases hD : kv.dropWhile (fun x => x ≠ ':') with
    | nil =>
      exfalso
      have := List.dropWhile_eq_nil_iff.mp hD ':' hmem
      simp at this
    | cons d mid => exact ⟨d, mid, rfl⟩
  have hd : d = ':' := by
    have := dropWhile_head_not (fun x => x ≠ ':') kv d mid hD
    simpa using this
  subst hd
  have hkv : kv.takeWhile (fun x => x ≠ ':') ++ ':' :: mid = kv := by
    rw [← hD]
    exact List.takeWhile_append_dropWhile _ _
  have hmid : (kv.dropWhile (fun x => x ≠ ':')).drop 1 = mid := by
    rw [hD]
    rfl
  rw [hmid] at hh hl hcnt ⊢
  -- the stripped value is quoteC :: t, with t ≠ [] and last element quoteC
  obtain ⟨t, hvpt⟩ : ∃ t, pyStrip mid = quoteC :: t := by
    cases hvpe : pyStrip mid with
    | nil => rw [hvpe] at hh; cases hh
    | cons x xs =>
      rw [hvpe] at hh
      simp at hh
      exact ⟨xs, by rw [hh]⟩
  rw [hvpt] at hl hcnt ⊢
  have ht : t ≠ [] := by
    intro h0
    rw [h0] at hcnt
    simp [List.count_cons] at hcnt
  have htsplit := List.dropLast_append_getLast ht
  have hlastq : t.getLast ht = quoteC := by
    have : (quoteC :: t).getLast? = some (t.getLast ht) := by
      conv_lhs => rw [← htsplit]
      rw [show quoteC :: (t.dropLast ++ [t.getLast ht]) =
          (quoteC :: t.dropLast) ++ [t.getLast ht] from rfl]
      exact List.getLast?_concat _
    rw [hl] at this
    exact (Option.some.inj this).symm
  have hcount_t : List.count c t = List.count c t.dropLast := by
    conv_lhs => rw [← htsplit]
    rw [List.count_append, hlastq]
    simp [List.count_singleton, hqc]
  have hcount_mid : List.count c mid = List.count c t := by
    have := count_pyStrip c hsp mid
    rw [hvpt] at this
    rw [← this, List.count_cons, hqc]
    simp
  -- now expand both sides
  rw [show (quoteC :: t).drop 1 = t from rfl]
  conv_rhs => rw [← hkv]
  simp only [List.count_append, List.count_cons, List.count_singleton,
    count_escape_flatMap c hq hbs, hqc, hspc]
  rw [hcount_mid, hcount_t]
  cases hcol : (':' == c) <;> simp [hcol] <;> omega

theorem tryKeyMatch_some {l repl rest : List Char}
    (h : tryKeyMatch l = some (repl, rest)) :
    ∃ c0 ws k kw ws2,
      l = c0 :: (ws ++ (k :: kw) ++ (ws2 ++ ':' :: rest)) ∧
      repl = c0 :: ws ++ quoteC :: (k :: kw) ++ quoteC :: (ws2 ++ [':']) := by
  cases l with
  | nil => simp [tryKeyMatch] at h
  | cons c0 r0 =>
    unfold tryKeyMatch at h
    dsimp only at h
    split_ifs at h with hc
    cases hdw : r0.dropWhile pyIsSpace with
    | nil => rw [hdw] at h; simp at h
    | cons k kr =>
      rw [hdw] at h
      dsimp only at h
      split_ifs at h with hk
      cases hdw2 : (kr.dropWhile isWordChar).dropWhile pyIsSpace with
      | nil => rw [hdw2] at h; simp at h
      | cons b r4 =>
        rw [hdw2] at h
        dsimp only at h
        split_ifs at h with hb
        subst hb
        obtain ⟨hrepl', hrest'⟩ := Prod.mk.injEq .. ▸ Option.some.inj h
        subst hrepl'
        subst hrest'
        set A := r0.takeWhile pyIsSpace with hA
        set B := kr.takeWhile isWordChar with hB
        set D := kr.dropWhile isWordChar with hD
        set C := D.takeWhile pyIsSpace with hC
        have e1 : A ++ (k :: kr) = r0 := by
          rw [hA, ← hdw]; exact List.takeWhile_append_dropWhile _ _
        have e2 : B ++ D = kr := by
          rw [hB, hD]; exact List.takeWhile_append_dropWhile _ _
        have e3 : C ++ (':' :: r4) = D := by
          rw [hC, hD, ← hdw2]
          exact List.takeWhile_append_dropWhile _ _
        refine ⟨c0, A, k, B, C, ?_, rfl⟩
        rw [← e1, ← e2, ← e3]
        simp

theorem count_fukF (c : Char) (hc : c ≠ quoteC) :
    ∀ (fuel : Nat) (l : List Char), List.count c (fukF fuel l) = List.count c l := by
  have hqc : (quoteC == c) = false := beq_eq_false_iff_ne.mpr fun h => hc h.symm
  intro fuel
  induction fuel with
  | zero => intro l; rfl
  | succ fuel ih =>
    intro l
    unfold fukF
    cases hm : tryKeyMatch l with
    | none =>
      cases l with
      | nil => rfl
      | cons a t => rw [List.count_cons, List.count_cons, ih]
    | some pr =>
      obtain ⟨repl, rest⟩ := pr
      obtain ⟨c0, ws, k, kw, ws2, hl, hrepl⟩ := tryKeyMatch_some hm
      rw [hl, hrepl, List.count_append, ih]
      simp only [List.count_append, List.count_cons, hqc]
      cases hcc : (c0 == c) <;> cases hkc : (k == c) <;> cases hcol : (':' == c) <;>
        simp [hcc, hkc, hcol] <;> omega

theorem tryUQMatch_append {l m r5 : List Char}
    (h : tryUQMatch l = some (m, r5)) : l = m ++ r5 := by
  cases l with
  | nil => cases h
  | cons c0 r0 =>
    unfold tryUQMatch at h
    dsimp only at h
    split_ifs at h with hc
    subst hc
    cases hdw : r0.dropWhile (fun x => x ≠ quoteC) with
    | nil => rw [hdw] at h; simp at h
    | cons x xs =>
      rw [hdw] at h
      cases xs with
      | nil => simp at h
      | cons b1 r1 =>
        dsimp only at h
        split_ifs at h with hb1
        have hb1' : b1 = ':' := not_not.mp (by simpa using hb1)
        subst hb1'
        have hx : x = quoteC := by
          have := dropWhile_head_not (fun x => x ≠ quoteC) r0 x (':' :: r1) hdw
          simpa using this
        subst hx
        cases hdw1 : r1.dropWhile pyIsSpace with
        | nil => rw [hdw1] at h; simp at h
        | cons v0 r2 =>
          rw [hdw1] at h
          dsimp only at h
          split_ifs at h with hv0
          subst hv0
          cases hdw2 : r2.dropWhile (fun x => x ≠ quoteC) with
          | nil => rw [hdw2] at h; simp at h
          | cons x3 r3 =>
            rw [hdw2] at h
            dsimp only at h
            have hx3 : x3 = quoteC := by
              have := dropWhile_head_not (fun x => x ≠ quoteC) r2 x3 r3 hdw2
              simpa using this
            subst hx3
            cases hdw3 : r3.dropWhile (fun x => x ≠ quoteC) with
            | nil => rw [hdw3] at h; simp at h
            | cons x4 r4 =>
              rw [hdw3] at h
              dsimp only at h
              have hx4 : x4 = quoteC := by
                have := dropWhile_head_not (fun x => x ≠ quoteC) r3 x4 r4 hdw3
                simpa using this
              subst hx4
              cases hdw4 : r4.dropWhile (fun x => x ≠ quoteC) with
              | nil => rw [hdw4] at h; simp at h
              | cons x5 r5' =>
                rw [hdw4] at h
                dsimp only at h
                have hx5 : x5 = quoteC := by
                  have := dropWhile_head_not (fun x => x ≠ quoteC) r4 x5 r5' hdw4
                  simpa using this
                subst hx5
                obtain ⟨hm', hr5'⟩ := Prod.mk.injEq .. ▸ Option.some.inj h
                subst hm'
                subst hr5'
                set K := r0.takeWhile (fun x => x ≠ quoteC) with hK
                set W := r1.takeWhile pyIsSpace with hW
                set V1 := r2.takeWhile (fun x => x ≠ quoteC) with hV1
                set V2 := r3.takeWhile (fun x => x ≠ quoteC) with hV2
                set V3 := r4.takeWhile (fun x => x ≠ quoteC) with hV3
                have e0 : K ++ (quoteC :: ':' :: r1) = r0 := by
                  rw [hK, ← hdw]; exact List.takeWhile_append_dropWhile _ _
                have e1 : W ++ (quoteC :: r2) = r1 := by
                  rw [hW, ← hdw1]; exact List.takeWhile_append_dropWhile _ _
                have e2 : V1 ++ (quoteC :: r3) = r2 := by
                  rw [hV1, ← hdw2]; exact List.takeWhile_append_dropWhile _ _
                have e3 : V2 ++ (quoteC :: r4) = r3 := by
                  rw [hV2, ← hdw3]; exact List.takeWhile_append_dropWhile _ _
                have e4 : V3 ++ (quoteC :: r5') = r4 := by
                  rw [hV3, ← hdw4]; exact List.takeWhile_append_dropWhile _ _
                rw [← e0, ← e1, ← e2, ← e3, ← e4]
                simp

theorem count_uqSubF (c : Char) (hq : c ≠ quoteC) (hbs : c ≠ backslashC)
    (hsp : pyIsSpace c = false) :
    ∀ (fuel : Nat) (l : List Char), List.count c (uqSubF fuel l) = List.count c l := by
  intro fuel
  induction fuel with
  | zero => intro l; rfl
  | succ fuel ih =>
    intro l
    unfold uqSubF
    cases hm : tryUQMatch l with
    | none =>
      cases l with
      | nil => rfl
      | cons a t => rw [List.count_cons, List.count_cons, ih]
    | some pr =>
      obtain ⟨m, r5⟩ := pr
      rw [tryUQMatch_append hm, List.count_append, List.count_append, ih,
        count_fix_kv_pair m c hq hbs hsp]

theorem count_rtcF (c : Char) (hcomma : c ≠ ',') (hsp : pyIsSpace c = false) :
    ∀ (fuel : Nat) (l : List Char), List.count c (rtcF fuel l) = List.count c l := by
  have hcc : (',' == c) = false := beq_eq_false_iff_ne.mpr fun h => hcomma h.symm
  intro fuel
  induction fuel with
  | zero => intro l; rfl
  | succ fuel ih =>
    intro l
    cases l with
    | nil => rfl
    | cons a t =>
      unfold rtcF
      split_ifs with ha
      · subst ha
        cases hdw : t.dropWhile pyIsSpace with
        | nil =>
          rw [List.count_cons, List.count_cons, ih]
        | cons b r2 =>
          dsimp only
          split_ifs with hb
          · have et : t.takeWhile pyIsSpace ++ (b :: r2) = t := by
              rw [← hdw]; exact List.takeWhile_append_dropWhile _ _
            have hws : List.count c (t.takeWhile pyIsSpace) = 0 :=
              count_eq_zero_of_all (fun d hd => List.mem_takeWhile_imp hd) hsp
            rw [List.count_cons, ih, List.count_cons, hcc, ← et,
              List.count_append, List.count_cons, hws]
            simp
          · rw [List.count_cons, List.count_cons, ih]
      · rw [List.count_cons, List.count_cons, ih]

theorem count_fix_unquoted_keys (c : Char) (hc : c ≠ quoteC) (l : List Char) :
    List.count c (fix_unquoted_keys l) = List.count c l :=
  count_fukF c hc _ l

theorem count_fix_quote_types (c : Char) (hq : c ≠ quoteC) (hsq : c ≠ squoteC)
    (l : List Char) : List.count c (fix_quote_types l) = List.count c l := by
  induction l with
  | nil => rfl
  | cons a t ih =>
    have : fix_quote_types (a :: t) =
        (if a = squoteC then quoteC else a) :: fix_quote_types t := rfl
    rw [this, List.count_cons, List.count_cons, ih]
    by_cases ha : a = squoteC
    · subst ha
      have h1 : (quoteC == c) = false := beq_eq_false_iff_ne.mpr fun h => hq h.symm
      have h2 : (squoteC == c) = false := beq_eq_false_iff_ne.mpr fun h => hsq h.symm
      simp [h1, h2]
    · simp [ha]

theorem count_fix_unescaped_quotes (c : Char) (hq : c ≠ quoteC)
    (hbs : c ≠ backslashC) (hsp : pyIsSpace c = false) (t : List Char) :
    List.count c (fix_unescaped_quotes t) = List.count c t := by
  unfold fix_unescaped_quotes
  by_cases h1 : jsonValid t = true
  · rw [if_pos h1]
  · rw [if_neg h1]
    dsimp only
    split_ifs with h2 h3
    · exact count_uqSubF c hq hbs hsp _ t
    · rfl
    · rfl

theorem count_remove_trailing_commas (c : Char) (hcomma : c ≠ ',')
    (hsp : pyIsSpace c = false) (l : List Char) :
    List.count c (remove_trailing_commas l) = List.count c l :=
  count_rtcF c hcomma hsp _ l

theorem safe_repair_none_eq (t : List Char) :
    safe_repair t none =
      remove_trailing_commas (fix_unescaped_quotes (fix_quote_types
        (fix_unquoted_keys t))) := by
  unfold safe_repair
  split_ifs with h
  · subst h
    rfl
  · rfl

theorem ppScan_out_subset :
    ∀ (fuel : Nat) (s : PreprocessState) (l : List Char) (c : Char),
      c ∈ (ppScan fuel s l).2 → c ∈ l := by
  intro fuel
  induction fuel with
  | zero => intro s l c h; simp [ppScan] at h
  | succ fuel ih =>
    intro s l c h
    cases l with
    | nil => simp [ppScan] at h
    | cons a t =>
      unfold ppScan at h
      dsimp only at h
      split_ifs at h with h1 h2 h3 h4 h5 <;>
      first
        | exact List.drop_subset _ _ (ih _ _ c h)
        | exact List.mem_cons_of_mem a (ih _ _ c h)
        | (dsimp only at h
           rcases List.mem_cons.mp h with rfl | hmem
           · exact List.mem_cons_self _ _
           · exact List.mem_cons_of_mem a (ih _ t c hmem))

theorem preprocess_chunk_out_subset (text : List Char) (s : PreprocessState)
    (c : Char) (h : c ∈ (preprocess_chunk text s).2) : c ∈ s.carry ++ text := by
  unfold preprocess_chunk at h
  dsimp only at h
  split_ifs at h with h1 h2
  · simp at h
  · simp at h
  · exact List.take_subset _ _ (ppScan_out_subset _ _ _ c h)

theorem preprocess_chunk_carry_subset (text : List Char) (s : PreprocessState)
    (c : Char) (h : c ∈ (preprocess_chunk text s).1.carry) : c ∈ s.carry ++ text := by
  unfold preprocess_chunk at h
  dsimp only at h
  split_ifs at h with h1 h2
  · exact List.mem_append_left _ h
  · exact h
  · exact List.drop_subset _ _ h

theorem preprocess_finalize_out_subset (s : PreprocessState) (c : Char)
    (h : c ∈ (preprocess_finalize s).2) : c ∈ s.carry := by
  unfold preprocess_finalize at h
  dsimp only at h
  split_ifs at h with h1
  · simp at h
  · exact ppScan_out_subset _ _ _ c h

theorem fsm_step_seek_skip (root : Option RootHint) (s : JsonFsmState) (ch : Char)
    (hstate : s.state = Phase.SEEK_START) (h1 : ch ≠ '{') (h2 : ch ≠ '[') :
    fsm_step root s ch = s := by
  unfold fsm_step
  rw [hstate]
  simp [h1, h2]

theorem fsm_feed_seek_skip (text : List Char) (root : Option RootHint) :
    ∀ s : JsonFsmState, s.state = Phase.SEEK_START →
      (∀ c ∈ text, c ≠ '{' ∧ c ≠ '[') → fsm_feed s text root = s := by
  induction text with
  | nil => intro s _ _; rfl
  | cons a t ih =>
    intro s hstate hfree
    rw [fsm_feed_cons,
      fsm_step_seek_skip root s a hstate (hfree a (by simp)).1 (hfree a (by simp)).2]
    exact ih s hstate fun c hc => hfree c (by simp [hc])

/-- C10: with no FSM state, `safe_repair` runs exactly the four textual
passes (key quoting, quote replacement, unescaped-quote fix, trailing-comma
removal) and never the truncation-completion step; consequently the counts of
`{`, `}`, `[` and `]` are preserved, so the open containers of a truncated
input remain unclosed.  The non-streaming artifact path and the `/test`
endpoint's fallback (taken whenever extraction yields nothing usable, e.g. on
input with no opening delimiter) call `safe_repair` in exactly this mode. -/
theorem c10_stateless_repair_mode :
    (∀ t : List Char, safe_repair t none =
        remove_trailing_commas (fix_unescaped_quotes (fix_quote_types
          (fix_unquoted_keys t)))) ∧
    (∀ (t : List Char) (c : Char), c = '{' ∨ c = '}' ∨ c = '[' ∨ c = ']' →
        List.count c (safe_repair t none) = List.count c t) ∧
    (∀ (rid ts : Nat) (content : List Char),
        (mkNoauthArtifact rid ts content).repaired_content =
          safe_repair content none) ∧
    (∀ broken : List Char, jsonValid broken = false →
        (∀ c ∈ broken, c ≠ '{' ∧ c ≠ '[') →
        (test_json_repair broken).repaired = safe_repair broken none) := by
  refine ⟨safe_repair_none_eq, fun t c hc => ?_, fun rid ts content => ?_,
    fun broken hvalid hfree => ?_⟩
  · rw [safe_repair_none_eq]
    rcases hc with rfl | rfl | rfl | rfl <;>
      rw [count_remove_trailing_commas _ (by decide) (by decide),
        count_fix_unescaped_quotes _ (by decide) (by decide) (by decide),
        count_fix_quote_types _ (by decide) (by decide),
        count_fix_unquoted_keys _ (by decide)]
  · unfold mkNoauthArtifact
    dsimp only
    split_ifs with h
    · subst h
      rfl
    · rfl
  · unfold test_json_repair
    rw [if_neg (by simp [hvalid])]
    dsimp only
    have hex : ∀ c ∈ (preprocess_chunk broken ({} : PreprocessState)).2,
        c ≠ '{' ∧ c ≠ '[' := fun c hcm => by
      have := preprocess_chunk_out_subset broken {} c hcm
      exact hfree c (by simpa using this)
    have hcx : ∀ c ∈ (preprocess_finalize
        ((preprocess_chunk broken ({} : PreprocessState)).1)).2,
        c ≠ '{' ∧ c ≠ '[' := fun c hcm => by
      have h1 := preprocess_finalize_out_subset _ c hcm
      have h2 := preprocess_chunk_carry_subset broken {} c h1
      exact hfree c (by simpa using h2)
    have hf1 : (if (preprocess_chunk broken ({} : PreprocessState)).2 ≠ [] then
        fsm_feed {} (preprocess_chunk broken ({} : PreprocessState)).2
        else ({} : JsonFsmState)) = ({} : JsonFsmState) := by
      split_ifs with h
      · exact fsm_feed_seek_skip _ _ {} rfl hex
      · rfl
    rw [hf1]
    have hf2 : (if (preprocess_finalize
          ((preprocess_chunk broken ({} : PreprocessState)).1)).2 ≠ [] then
        fsm_feed {} (preprocess_finalize
          ((preprocess_chunk broken ({} : PreprocessState)).1)).2
        else ({} : JsonFsmState)) = ({} : JsonFsmState) := by
      split_ifs with h
      · exact fsm_feed_seek_skip _ _ {} rfl hcx
      · rfl
    rw [hf2]
    rw [show fsm_result (fsm_finalize ({} : JsonFsmState)) = ([], Status.FAILED)
      from by decide]
    dsimp only
    rw [if_neg (by decide)]

/-- Witness for C10 at concrete inputs: the composition at `[1,`, the bracket
counts at `[1,`, the artifact path at `{a`, and the `/test` fallback at
`hello`. -/
theorem c10_stateless_repair_mode_witness :
    safe_repair ['[', '1', ','] none =
      remove_trailing_commas (fix_unescaped_quotes (fix_quote_types
        (fix_unquoted_keys ['[', '1', ',']))) ∧
    List.count '[' (safe_repair ['[', '1', ','] none) =
      List.count '[' ['[', '1', ','] ∧
    (mkNoauthArtifact 0 0 ['{', 'a']).repaired_content =
      safe_repair ['{', 'a'] none ∧
    (test_json_repair ['h', 'e', 'l', 'l', 'o']).repaired =
      safe_repair ['h', 'e', 'l', 'l', 'o'] none :=
  ⟨c10_stateless_repair_mode.1 ['[', '1', ','],
   c10_stateless_repair_mode.2.1 ['[', '1', ','] '[' (by decide),
   c10_stateless_repair_mode.2.2.1 0 0 ['{', 'a'],
   c10_stateless_repair_mode.2.2.2 ['h', 'e', 'l', 'l', 'o'] (by decide) (by decide)⟩

theorem foldl_min_le_init (l : List NoauthArtifact) :
    ∀ init : Nat, (∀ x ∈ l, init ≤ x.timestamp) →
      l.foldl (fun m x => if x.timestamp < m then x.timestamp else m) init = init := by
  induction l with
  | nil => intro init _; rfl
  | cons a t ih =>
    intro init h
    have ha : ¬ a.timestamp < init := not_lt.mpr (h a (by simp))
    show t.foldl _ (if a.timestamp < init then a.timestamp else init) = init
    rw [if_neg ha]
    exact ih init fun x hx => h x (by simp [hx])

theorem foldl_min_attained (l : List NoauthArtifact) :
    ∀ init : Nat,
      l.foldl (fun m x => if x.timestamp < m then x.timestamp else m) init = init ∨
      ∃ x ∈ l, x.timestamp =
        l.foldl (fun m x => if x.timestamp < m then x.timestamp else m) init := by
  induction l with
  | nil => intro init; exact Or.inl rfl
  | cons a t ih =>
    intro init
    have hstep : (a :: t).foldl
        (fun m x => if x.timestamp < m then x.timestamp else m) init =
        t.foldl (fun m x => if x.timestamp < m then x.timestamp else m)
          (if a.timestamp < init then a.timestamp else init) := rfl
    by_cases ha : a.timestamp < init
    · rw [hstep, if_pos ha]
      rcases ih a.timestamp with h | ⟨x, hx, he⟩
      · exact Or.inr ⟨a, by simp, h.symm⟩
      · exact Or.inr ⟨x, by simp [hx], he⟩
    · rw [hstep, if_neg ha]
      rcases ih init with h | ⟨x, hx, he⟩
      · exact Or.inl h
      · exact Or.inr ⟨x, by simp [hx], he⟩

theorem store_upsert_length (store : List NoauthArtifact) (a : NoauthArtifact) :
    (store_upsert store a).length ≤ store.length + 1 := by
  unfold store_upsert
  split_ifs with h
  · rw [List.length_map]
    omega
  · rw [List.length_append]
    simp only [List.length_singleton]
    omega

theorem store_upsert_fresh (store : List NoauthArtifact) (a : NoauthArtifact)
    (h : (store.any fun x => x.request_id = a.request_id) = false) :
    store_upsert store a = store ++ [a] := by
  unfold store_upsert
  rw [if_neg (by simp [h])]

theorem store_evict_length_cons (first : NoauthArtifact) (rest : List NoauthArtifact) :
    (store_evict (first :: rest)).length = (first :: rest).length - 1 := by
  unfold store_evict
  dsimp only
  rcases foldl_min_attained (first :: rest) first.timestamp with he | ⟨x, hx, he⟩
  · exact List.length_eraseP_of_mem (List.mem_cons_self first rest) (by simp [he])
  · exact List.length_eraseP_of_mem hx (by simp [he])

theorem store_evict_cons_min (first : NoauthArtifact) (rest : List NoauthArtifact)
    (hmin : (first :: rest).foldl
        (fun m x => if x.timestamp < m then x.timestamp else m) first.timestamp =
      first.timestamp) :
    store_evict (first :: rest) = rest := by
  unfold store_evict
  dsimp only
  rw [hmin]
  exact List.eraseP_cons_of_pos (by simp)

theorem store_insert_length (store : List NoauthArtifact) (a : NoauthArtifact)
    (h : store.length ≤ MAX_ARTIFACTS) :
    (store_insert store a).length ≤ MAX_ARTIFACTS := by
  unfold store_insert
  refine le_trans (store_upsert_length _ _) ?_
  split_ifs with hfull
  · cases store with
    | nil => simp [MAX_ARTIFACTS] at hfull
    | cons first rest =>
      rw [store_evict_length_cons]
      simp only [MAX_ARTIFACTS] at h ⊢
      simp only [List.length_cons] at h ⊢
      omega
  · simp only [MAX_ARTIFACTS] at h hfull ⊢
    omega

theorem mkNoauthArtifact_request_id (rid ts : Nat) (content : List Char) :
    (mkNoauthArtifact rid ts content).request_id = rid := rfl

theorem mkNoauthArtifact_timestamp (rid ts : Nat) (content : List Char) :
    (mkNoauthArtifact rid ts content).timestamp = ts := rfl

theorem c8_any_id_false (content : List Char) (M n N : Nat)
    (h : ∀ i, M ≤ i → i < M + n → i ≠ N) :
    (((List.range' M n).map fun i => mkNoauthArtifact i i content).any
      fun x => x.request_id = N) = false := by
  rw [List.any_eq_false]
  intro x hx
  obtain ⟨i, hi, rfl⟩ := List.mem_map.mp hx
  obtain ⟨h1, h2⟩ := List.mem_range'_1.mp hi
  rw [mkNoauthArtifact_request_id]
  simp
  exact h i h1 h2

theorem c8_insert_step (content : List Char) (M : Nat) :
    store_insert ((List.range' M 100).map fun i => mkNoauthArtifact i i content)
        (mkNoauthArtifact (M + 100) (M + 100) content) =
      (List.range' (M + 1) 100).map fun i => mkNoauthArtifact i i content := by
  have hexp : (List.range' M 100).map (fun i => mkNoauthArtifact i i content) =
      mkNoauthArtifact M M content ::
        ((List.range' (M + 1) 99).map fun i => mkNoauthArtifact i i content) := by
    rw [show (100 : Nat) = 99 + 1 from rfl, List.range'_succ]
    rfl
  unfold store_insert
  rw [if_pos (by rw [List.length_map, List.length_range']; simp [MAX_ARTIFACTS])]
  rw [hexp]
  rw [store_evict_cons_min _ _ (by
    refine foldl_min_le_init _ _ fun x hx => ?_
    rcases List.mem_cons.mp hx with rfl | hx2
    · exact le_refl _
    · obtain ⟨i, hi, rfl⟩ := List.mem_map.mp hx2
      obtain ⟨h1, _⟩ := List.mem_range'_1.mp hi
      rw [mkNoauthArtifact_timestamp, mkNoauthArtifact_timestamp]
      omega)]
  rw [store_upsert_fresh _ _ (c8_any_id_false content (M + 1) 99 (M + 100) (by omega))]
  rw [show (100 : Nat) = 99 + 1 from rfl, List.range'_1_concat, List.map_append]
  rw [show M + 1 + 99 = M + 100 from by omega]
  rfl

theorem c8_fold_small (content : List Char) :
    ∀ N : Nat, N ≤ 100 →
      (List.range N).foldl (fun st i => store_repair_artifact st i i content) [] =
        (List.range N).map fun i => mkNoauthArtifact i i content := by
  intro N
  induction N with
  | zero => intro _; rfl
  | succ n ih =>
    intro hN
    rw [List.range_succ, List.foldl_concat, List.map_append, ih (by omega)]
    unfold store_repair_artifact store_insert
    rw [if_neg (by rw [List.length_map, List.length_range]; simp [MAX_ARTIFACTS]; omega)]
    rw [store_upsert_fresh _ _ (by
      rw [List.range_eq_range']
      exact c8_any_id_false content 0 n n (by omega))]
    rfl

theorem c8_fold_big (content : List Char) :
    ∀ K : Nat,
      (List.range (100 + K)).foldl
          (fun st i => store_repair_artifact st i i content) [] =
        (List.range' K 100).map fun i => mkNoauthArtifact i i content := by
  intro K
  induction K with
  | zero =>
    rw [show 100 + 0 = 100 from rfl, c8_fold_small content 100 (le_refl _),
      List.range_eq_range']
  | succ k ih =>
    rw [show 100 + (k + 1) = (100 + k) + 1 from by omega, List.range_succ,
      List.foldl_concat, ih]
    unfold store_repair_artifact
    rw [show 100 + k = k + 100 from by omega]
    exact c8_insert_step content k

/-- C8 amended: the capacity invariant holds for the non-streaming artifact
store (`store_repair_artifact` / `repair_artifacts` in chat_noauth.py): every
insertion preserves `|store| ≤ 100`, and with fresh ids and increasing
timestamps, after `N ≥ 100` insertions the store holds exactly the 100
most-recent artifacts.  The claim as stated is false because the streaming
finalization path stores into the unbounded `repair_results` dict with no
eviction (see the counterexample). -/
theorem c8_noauth_store_capacity (content : List Char) :
    (∀ (store : List NoauthArtifact) (rid ts : Nat),
      store.length ≤ MAX_ARTIFACTS →
      (store_repair_artifact store rid ts content).length ≤ MAX_ARTIFACTS) ∧
    (∀ N : Nat, MAX_ARTIFACTS ≤ N →
      (List.range N).foldl (fun st i => store_repair_artifact st i i content) [] =
        (List.range' (N - MAX_ARTIFACTS) MAX_ARTIFACTS).map
          fun i => mkNoauthArtifact i i content) := by
  constructor
  · intro store rid ts h
    exact store_insert_length store _ h
  · intro N hN
    have hsplit : N = 100 + (N - 100) := by
      simp only [MAX_ARTIFACTS] at hN
      omega
    rw [show N - MAX_ARTIFACTS = N - 100 from rfl,
      show MAX_ARTIFACTS = 100 from rfl]
    conv_lhs => rw [hsplit]
    exact c8_fold_big content (N - 100)

/-- Witness for C8's amended theorem: one insertion into an empty store, and
the retained window after 101 insertions. -/
theorem c8_noauth_store_capacity_witness :
    (store_repair_artifact [] 0 0 ['{', 'a']).length ≤ MAX_ARTIFACTS ∧
    (List.range 101).foldl (fun st i => store_repair_artifact st i i ['{', 'a']) [] =
      (List.range' 1 100).map (fun i => mkNoauthArtifact i i ['{', 'a']) :=
  ⟨(c8_noauth_store_capacity ['{', 'a']).1 [] 0 0 (by decide),
   (c8_noauth_store_capacity ['{', 'a']).2 101 (by decide)⟩

/-- C8 counterexample: the streaming path's `repair_results` dict has no
capacity bound — after 101 stream finalizations with distinct request ids it
holds 101 entries, refuting the claim that every artifact-recording code path
keeps at most 100. -/
theorem c8_counterexample :
    ((List.range 101).foldl
        (fun st i => repair_results_insert st i
          { status := "PASSTHROUGH", original_json := none,
            repaired_json := none, parse_ok := false }) []).length = 101 ∧
      MAX_ARTIFACTS < 101 := by
  set_option maxRecDepth 10000 in decide

theorem finalize_extraction_failed_parse (p : Processor)
    (h : (finalize_extraction p).2.json_text = none) :
    (finalize_extraction p).2.parse_ok = false := by
  unfold finalize_extraction at h ⊢
  dsimp only at h ⊢
  split_ifs at h ⊢ <;> simp_all

theorem mkStored_passthrough (fe : FinalExtraction) (h : fe.parse_ok = false) :
    (mkStored fe).status = "PASSTHROUGH" := by
  unfold mkStored
  dsimp only
  rw [if_neg (by rw [h]; simp)]

theorem mkStored_original (fe : FinalExtraction) :
    (mkStored fe).original_json = fe.json_text := rfl

theorem handleChunk_stored (st : StreamState) (c : List Char) (a : StoredResult)
    (h : (handleChunk st c).stored = some a) :
    st.stored = some a ∨ a = mkStored (finalize_extraction st.processor).2 := by
  unfold handleChunk at h
  by_cases h1 : pyStrip c = []
  · rw [if_pos h1] at h
    exact Or.inl h
  rw [if_neg h1] at h
  by_cases h2 : dataPrefixTok.isPrefixOf c = true
  case neg =>
    rw [if_neg h2] at h
    exact Or.inl h
  rw [if_pos h2] at h
  dsimp only at h
  by_cases h3 : pyStrip (c.drop 6) = doneTok
  · rw [if_pos h3] at h
    dsimp only at h
    exact Or.inr (Option.some.inj h).symm
  · rw [if_neg h3] at h
    cases hjp : jsonParse (pyStrip (c.drop 6)) with
    | some v =>
      rw [hjp] at h
      dsimp only at h
      exact Or.inl h
    | none =>
      rw [hjp] at h
      exact Or.inl h

theorem process_stream_outputs (chunks : List (List Char)) :
    ∀ st : StreamState, (process_stream st chunks).1 = chunks := by
  induction chunks with
  | nil => intro st; rfl
  | cons c cs ih =>
    intro st
    show (c :: (process_stream (handleChunk st c) cs).1, _).1 = c :: cs
    rw [show (c :: (process_stream (handleChunk st c) cs).1,
      (process_stream (handleChunk st c) cs).2).1 =
      c :: (process_stream (handleChunk st c) cs).1 from rfl, ih]

theorem process_stream_stored (chunks : List (List Char)) :
    ∀ st : StreamState,
      (∀ a : StoredResult, st.stored = some a → a.original_json = none →
        a.status = "PASSTHROUGH") →
      ∀ a : StoredResult, (process_stream st chunks).2.stored = some a →
        a.original_json = none → a.status = "PASSTHROUGH" := by
  induction chunks with
  | nil => intro st hst a ha; exact hst a ha
  | cons c cs ih =>
    intro st hst a ha hao
    refine ih (handleChunk st c) (fun b hb hbo => ?_) a ha hao
    rcases handleChunk_stored st c b hb with hold | hnew
    · exact hst b hold hbo
    · subst hnew
      refine mkStored_passthrough _ (finalize_extraction_failed_parse _ ?_)
      rw [← mkStored_original]
      exact hbo

/-- C9 amended: the stream orchestrator yields every upstream chunk
downstream unchanged, and whenever extraction ends with nothing usable
(`finalize_extraction` produced no `json_text` — the terminal `FAILED` /
empty cases), the artifact stored in `repair_results` has status
`PASSTHROUGH` in every case: the `FAILED` status computed by
`finalize_extraction` is never propagated to the stored artifact.  The
hypothesis restricts to event shapes the Python loop survives (anything else
raises an uncaught exception in the source). -/
theorem c9_extraction_failure_artifact (chunks : List (List Char))
    (hok : ∀ c ∈ chunks, benignChunk c = true) :
    (process_stream {} chunks).1 = chunks ∧
    (∀ a : StoredResult, (process_stream {} chunks).2.stored = some a →
      a.original_json = none → a.status = "PASSTHROUGH") :=
  ⟨process_stream_outputs chunks {},
   process_stream_stored chunks {} (fun a ha => by cases ha)⟩

/-- Witness for C9's amended theorem on the concrete fenced-JSON stream. -/
theorem c9_extraction_failure_artifact_witness :
    (process_stream {} [c9Chunk1, c9Chunk2]).1 = [c9Chunk1, c9Chunk2] ∧
    ({ status := "PASSTHROUGH", original_json := none, repaired_json := none,
        parse_ok := false } : StoredResult).status = "PASSTHROUGH" :=
  ⟨(c9_extraction_failure_artifact [c9Chunk1, c9Chunk2] (by decide)).1,
   (c9_extraction_failure_artifact [c9Chunk1, c9Chunk2] (by decide)).2
     { status := "PASSTHROUGH", original_json := none, repaired_json := none,
       parse_ok := false } (by decide) (by decide)⟩

/-- C9 counterexample: a streaming request whose only content delta is
` ```json{"a": 1}``` ` (clearly JSON by intent — an explicit ```json fence)
ends in terminal extraction failure, yet the recorded artifact's status is
`PASSTHROUGH`, not `FAILED`, refuting the claim that such artifacts carry
status `FAILED` with `PASSTHROUGH` reserved for content that was non-JSON by
intent. -/
theorem c9_counterexample :
    (process_stream {} [c9Chunk1, c9Chunk2]).2.stored =
      some { status := "PASSTHROUGH", original_json := none,
             repaired_json := none, parse_ok := false } ∧
    extract_json_from_content c9Content = ([], Status.FAILED) := by decide

theorem fsm_feed_append (s : JsonFsmState) (a b : List Char) (root : Option RootHint) :
    fsm_feed s (a ++ b) root = fsm_feed (fsm_feed s a root) b root :=
  List.foldl_append _ _ _ _

theorem fsm_feed_strbody {sb : List Char} (hsb : StrBody sb) :
    ∀ (s : JsonFsmState) (l : List Char),
      s.state = Phase.IN_JSON → s.in_string = true → s.escape = false →
      fsm_feed s (sb ++ l) none = fsm_feed { s with buf := s.buf ++ sb } l none := by
  induction hsb with
  | nil =>
    intro s l _ _ _
    simp
  | @plain c sb' hq hbs hrec ih =>
    intro s l h1 h2 h3
    have hstep : fsm_step none s c = { s with buf := s.buf ++ [c] } := by
      unfold fsm_step
      rw [if_neg (by rw [h1]; simp), if_neg (by rw [h1]; simp)]
      dsimp only
      rw [if_pos h2, if_neg (by rw [h3]; simp), if_neg (by simp [hbs]),
        if_neg (by simp [hq])]
    rw [show (c :: sb') ++ l = c :: (sb' ++ l) from rfl, fsm_feed_cons, hstep,
      ih { s with buf := s.buf ++ [c] } l h1 h2 h3]
    have : (s.buf ++ [c]) ++ sb' = s.buf ++ (c :: sb') := by simp
    rw [this]
  | @esc c sb' hrec ih =>
    intro s l h1 h2 h3
    have hstep1 : fsm_step none s backslashC =
        { s with buf := s.buf ++ [backslashC], escape := true } := by
      unfold fsm_step
      rw [if_neg (by rw [h1]; simp), if_neg (by rw [h1]; simp)]
      dsimp only
      rw [if_pos h2, if_neg (by rw [h3]; simp), if_pos rfl]
    have hstep2 : fsm_step none
        { s with buf := s.buf ++ [backslashC], escape := true } c =
        { s with buf := (s.buf ++ [backslashC]) ++ [c], escape := false } := by
      unfold fsm_step
      rw [if_neg (by rw [h1]; simp), if_neg (by rw [h1]; simp)]
      dsimp only
      rw [if_pos h2, if_pos rfl]
    have h4 := ih { s with buf := (s.buf ++ [backslashC]) ++ [c], escape := false }
      l h1 h2 rfl
    rw [show (backslashC :: c :: sb') ++ l = backslashC :: c :: (sb' ++ l) from rfl,
      fsm_feed_cons, hstep1, fsm_feed_cons, hstep2, h4]
    congr 1
    simp [h3]

theorem fsm_feed_rootseq {m : List Char} (hm : RootSeq m) :
    ∀ (s : JsonFsmState) (l : List Char),
      s.state = Phase.IN_JSON → s.in_string = false → s.escape = false →
      1 ≤ s.depth → s.buf.length + m.length < s.max_chars →
      fsm_feed s (m ++ l) none = fsm_feed { s with buf := s.buf ++ m } l none := by
  induction hm with
  | nil =>
    intro s l _ _ _ _ _
    simp
  | @plain c m' h1 h2 h3 h4 h5 hrec ih =>
    intro s l hst hin hesc hd hlen
    simp only [List.length_cons] at hlen
    have hstep : fsm_step none s c = { s with buf := s.buf ++ [c] } := by
      unfold fsm_step
      rw [if_neg (by rw [hst]; simp), if_neg (by rw [hst]; simp)]
      dsimp only
      rw [if_neg (by rw [hin]; simp), if_neg (by simp [h5]),
        if_neg (show ¬(c = '{' ∨ c = '[') from by simp [h1, h3]),
        if_neg (show ¬(c = '}' ∨ c = ']') from by simp [h2, h4]),
        if_neg (by simp [h2, h4]),
        if_neg (by dsimp only; simp only [List.length_append, List.length_cons,
          List.length_nil]; omega)]
    have h6 := ih { s with buf := s.buf ++ [c] } l hst hin hesc hd
      (by dsimp only; simp only [List.length_append, List.length_cons,
        List.length_nil]; omega)
    rw [show (c :: m') ++ l = c :: (m' ++ l) from rfl, fsm_feed_cons, hstep, h6]
    congr 1
    simp
  | @str sb l' hsb hrec ih =>
    intro s l hst hin hesc hd hlen
    simp only [List.length_cons, List.length_append] at hlen
    have hstep1 : fsm_step none s quoteC =
        { s with buf := s.buf ++ [quoteC], in_string := true } := by
      unfold fsm_step
      rw [if_neg (by rw [hst]; simp), if_neg (by rw [hst]; simp)]
      dsimp only
      rw [if_neg (by rw [hin]; simp), if_pos rfl]
    have h6 := fsm_feed_strbody hsb
      { s with buf := s.buf ++ [quoteC], in_string := true }
      (quoteC :: (l' ++ l)) hst rfl hesc
    have hstep2 : fsm_step none
        { s with buf := (s.buf ++ [quoteC]) ++ sb, in_string := true } quoteC =
        { s with buf := ((s.buf ++ [quoteC]) ++ sb) ++ [quoteC],
                 in_string := false } := by
      unfold fsm_step
      rw [if_neg (by rw [hst]; simp), if_neg (by rw [hst]; simp)]
      dsimp only
      rw [if_pos rfl, if_neg (by rw [hesc]; simp),
        if_neg (show ¬(quoteC = backslashC) from by decide), if_pos rfl]
    have h7 := ih
      { s with buf := ((s.buf ++ [quoteC]) ++ sb) ++ [quoteC], in_string := false }
      l hst rfl hesc hd
      (by dsimp only; simp only [List.length_append, List.length_cons,
        List.length_nil]; omega)
    rw [show (quoteC :: sb ++ quoteC :: l') ++ l =
        quoteC :: (sb ++ (quoteC :: (l' ++ l))) from by simp,
      fsm_feed_cons, hstep1, h6, fsm_feed_cons, hstep2, h7]
    congr 1
    simp [hin]
  | @obj m' l' hm' hl' ihm ihl =>
    intro s l hst hin hesc hd hlen
    simp only [List.length_cons, List.length_append] at hlen
    have hstep1 : fsm_step none s '{' =
        { s with buf := s.buf ++ ['{'], depth := s.depth + 1 } := by
      unfold fsm_step
      rw [if_neg (by rw [hst]; simp), if_neg (by rw [hst]; simp)]
      dsimp only
      rw [if_neg (by rw [hin]; simp), if_neg (by decide)]
      rw [if_pos (show ('{' = '{' ∨ '{' = '[') from Or.inl rfl),
        if_neg (by simp),
        if_neg (by dsimp only; simp only [List.length_append, List.length_cons,
          List.length_nil]; omega)]
    have h6 := ihm { s with buf := s.buf ++ ['{'], depth := s.depth + 1 }
      ('}' :: (l' ++ l)) hst hin hesc (by dsimp only; omega)
      (by dsimp only; simp only [List.length_append, List.length_cons,
        List.length_nil]; omega)
    have hstep2 : fsm_step none
        { s with buf := (s.buf ++ ['{']) ++ m', depth := s.depth + 1 } '}' =
        { s with buf := ((s.buf ++ ['{']) ++ m') ++ ['}'], depth := s.depth } := by
      unfold fsm_step
      rw [if_neg (by rw [hst]; simp), if_neg (by rw [hst]; simp)]
      dsimp only
      rw [if_neg (by rw [hin]; simp), if_neg (by decide)]
      rw [if_neg (show ¬('}' = '{' ∨ '}' = '[') from by decide),
        if_pos (show ('}' = '}' ∨ '}' = ']') from Or.inl rfl),
        if_neg (by rintro ⟨-, h⟩; dsimp only at h; omega),
        if_neg (by dsimp only; simp only [List.length_append, List.length_cons,
          List.length_nil]; omega)]
      have hdep : s.depth + 1 - 1 = s.depth := by omega
      rw [hdep]
    have h7 := ihl
      { s with buf := ((s.buf ++ ['{']) ++ m') ++ ['}'], depth := s.depth }
      l hst hin hesc hd
      (by dsimp only; simp only [List.length_append, List.length_cons,
        List.length_nil]; omega)
    rw [show ('{' :: m' ++ '}' :: l') ++ l =
        '{' :: (m' ++ ('}' :: (l' ++ l))) from by simp,
      fsm_feed_cons, hstep1, h6, fsm_feed_cons, hstep2, h7]
    congr 1
    simp
  | @arr m' l' hm' hl' ihm ihl =>
    intro s l hst hin hesc hd hlen
    simp only [List.length_cons, List.length_append] at hlen
    have hstep1 : fsm_step none s '[' =
        { s with buf := s.buf ++ ['['], depth := s.depth + 1 } := by
      unfold fsm_step
      rw [if_neg (by rw [hst]; simp), if_neg (by rw [hst]; simp)]
      dsimp only
      rw [if_neg (by rw [hin]; simp), if_neg (by decide)]
      rw [if_pos (show ('[' = '{' ∨ '[' = '[') from Or.inr rfl),
        if_neg (by simp),
        if_neg (by dsimp only; simp only [List.length_append, List.length_cons,
          List.length_nil]; omega)]
    have h6 := ihm { s with buf := s.buf ++ ['['], depth := s.depth + 1 }
      (']' :: (l' ++ l)) hst hin hesc (by dsimp only; omega)
      (by dsimp only; simp only [List.length_append, List.length_cons,
        List.length_nil]; omega)
    have hstep2 : fsm_step none
        { s with buf := (s.buf ++ ['[']) ++ m', depth := s.depth + 1 } ']' =
        { s with buf := ((s.buf ++ ['[']) ++ m') ++ [']'], depth := s.depth } := by
      unfold fsm_step
      rw [if_neg (by rw [hst]; simp), if_neg (by rw [hst]; simp)]
      dsimp only
      rw [if_neg (by rw [hin]; simp), if_neg (by decide)]
      rw [if_neg (show ¬(']' = '{' ∨ ']' = '[') from by decide),
        if_pos (show (']' = '}' ∨ ']' = ']') from Or.inr rfl),
        if_neg (by rintro ⟨-, h⟩; dsimp only at h; omega),
        if_neg (by dsimp only; simp only [List.length_append, List.length_cons,
          List.length_nil]; omega)]
      have hdep : s.depth + 1 - 1 = s.depth := by omega
      rw [hdep]
    have h7 := ihl
      { s with buf := ((s.buf ++ ['[']) ++ m') ++ [']'], depth := s.depth }
      l hst hin hesc hd
      (by dsimp only; simp only [List.length_append, List.length_cons,
        List.length_nil]; omega)
    rw [show ('[' :: m' ++ ']' :: l') ++ l =
        '[' :: (m' ++ (']' :: (l' ++ l))) from by simp,
      fsm_feed_cons, hstep1, h6, fsm_feed_cons, hstep2, h7]
    congr 1
    simp

theorem fsm_step_close_obj (s : JsonFsmState) (hst : s.state = Phase.IN_JSON)
    (hin : s.in_string = false) (hd : s.depth = 1) :
    fsm_step none s '}' =
      { s with buf := s.buf ++ ['}'], depth := 0, state := Phase.DONE } := by
  unfold fsm_step
  rw [if_neg (by rw [hst]; simp), if_neg (by rw [hst]; simp)]
  dsimp only
  rw [if_neg (by rw [hin]; simp), if_neg (by decide),
    if_neg (show ¬('}' = '{' ∨ '}' = '[') from by decide),
    if_pos (show ('}' = '}' ∨ '}' = ']') from Or.inl rfl),
    if_pos (by exact ⟨Or.inl rfl, by dsimp only; omega⟩)]
  simp [hd]

theorem fsm_step_close_arr (s : JsonFsmState) (hst : s.state = Phase.IN_JSON)
    (hin : s.in_string = false) (hd : s.depth = 1) :
    fsm_step none s ']' =
      { s with buf := s.buf ++ [']'], depth := 0, state := Phase.DONE } := by
  unfold fsm_step
  rw [if_neg (by rw [hst]; simp), if_neg (by rw [hst]; simp)]
  dsimp only
  rw [if_neg (by rw [hin]; simp), if_neg (by decide),
    if_neg (show ¬(']' = '{' ∨ ']' = '[') from by decide),
    if_pos (show (']' = '}' ∨ ']' = ']') from Or.inr rfl),
    if_pos (by exact ⟨Or.inr rfl, by dsimp only; omega⟩)]
  simp [hd]

/-- C6: first-root selection.  For an input `pre ++ json1 ++ rest` where the
prefix contains no opening brace or bracket and `json1` is a balanced JSON
object or array whose length fits within `max_chars`, the extraction FSM
ends in the `DONE` phase having captured exactly `json1` in its buffer —
the first balanced root wins — and feeding any further bytes to the `DONE`
state leaves it unchanged, so every byte after `DONE` is ignored. -/
theorem c6_first_root_selection (pre json1 rest extra : List Char) (maxc : Nat)
    (hpre : ∀ c ∈ pre, c ≠ '{' ∧ c ≠ '[')
    (hbal : BalancedRoot json1)
    (hlen : json1.length ≤ maxc) :
    (fsm_feed { max_chars := maxc } (pre ++ (json1 ++ rest)) none).state =
        Phase.DONE ∧
    (fsm_feed { max_chars := maxc } (pre ++ (json1 ++ rest)) none).buf = json1 ∧
    fsm_feed (fsm_feed { max_chars := maxc } (pre ++ (json1 ++ rest)) none)
        extra none =
      fsm_feed { max_chars := maxc } (pre ++ (json1 ++ rest)) none := by
  obtain ⟨m, hm, hj⟩ := hbal
  have hseek := fsm_feed_seek_skip pre none ({ max_chars := maxc } : JsonFsmState)
    rfl hpre
  rcases hj with hj | hj
  · subst hj
    simp only [List.length_cons, List.length_append, List.length_nil] at hlen
    rw [fsm_feed_append, hseek,
      show ('{' :: m ++ ['}']) ++ rest = '{' :: (m ++ ('}' :: rest)) from by simp,
      fsm_feed_cons]
    have hopen : fsm_step none ({ max_chars := maxc } : JsonFsmState) '{' =
        { state := Phase.IN_JSON, depth := 1, in_string := false, escape := false,
          started_with := some '{', buf := ['{'], max_chars := maxc,
          completable := false } := rfl
    rw [hopen]
    have hfeed := fsm_feed_rootseq hm
      { state := Phase.IN_JSON, depth := 1, in_string := false, escape := false,
        started_with := some '{', buf := ['{'], max_chars := maxc,
        completable := false }
      ('}' :: rest) rfl rfl rfl (by dsimp only; omega)
      (by dsimp only; simp only [List.length_cons, List.length_nil]; omega)
    rw [hfeed, fsm_feed_cons, fsm_step_close_obj _ rfl rfl rfl,
      fsm_feed_terminal _ rest none (Or.inl rfl)]
    refine ⟨rfl, by simp, fsm_feed_terminal _ extra none (Or.inl rfl)⟩
  · subst hj
    simp only [List.length_cons, List.length_append, List.length_nil] at hlen
    rw [fsm_feed_append, hseek,
      show ('[' :: m ++ [']']) ++ rest = '[' :: (m ++ (']' :: rest)) from by simp,
      fsm_feed_cons]
    have hopen : fsm_step none ({ max_chars := maxc } : JsonFsmState) '[' =
        { state := Phase.IN_JSON, depth := 1, in_string := false, escape := false,
          started_with := some '[', buf := ['['], max_chars := maxc,
          completable := false } := rfl
    rw [hopen]
    have hfeed := fsm_feed_rootseq hm
      { state := Phase.IN_JSON, depth := 1, in_string := false, escape := false,
        started_with := some '[', buf := ['['], max_chars := maxc,
        completable := false }
      (']' :: rest) rfl rfl rfl (by dsimp only; omega)
      (by dsimp only; simp only [List.length_cons, List.length_nil]; omega)
    rw [hfeed, fsm_feed_cons, fsm_step_close_arr _ rfl rfl rfl,
      fsm_feed_terminal _ rest none (Or.inl rfl)]
    refine ⟨rfl, by simp, fsm_feed_terminal _ extra none (Or.inl rfl)⟩

theorem c6_first_root_selection_witness :
    (fsm_feed { max_chars := 200000 }
        (['x', 'y'] ++ (('{' :: [quoteC, 'a', quoteC, ':', '1'] ++ ['}']) ++
          ['z', '{', '}'])) none).state = Phase.DONE ∧
    (fsm_feed { max_chars := 200000 }
        (['x', 'y'] ++ (('{' :: [quoteC, 'a', quoteC, ':', '1'] ++ ['}']) ++
          ['z', '{', '}'])) none).buf =
      '{' :: [quoteC, 'a', quoteC, ':', '1'] ++ ['}'] ∧
    fsm_feed
        (fsm_feed { max_chars := 200000 }
          (['x', 'y'] ++ (('{' :: [quoteC, 'a', quoteC, ':', '1'] ++ ['}']) ++
            ['z', '{', '}'])) none) ['t'] none =
      fsm_feed { max_chars := 200000 }
        (['x', 'y'] ++ (('{' :: [quoteC, 'a', quoteC, ':', '1'] ++ ['}']) ++
          ['z', '{', '}'])) none :=
  c6_first_root_selection ['x', 'y']
    ('{' :: [quoteC, 'a', quoteC, ':', '1'] ++ ['}']) ['z', '{', '}'] ['t']
    200000 (by decide)
    ⟨[quoteC, 'a', quoteC, ':', '1'],
      RootSeq.str (StrBody.plain (by decide) (by decide) StrBody.nil)
        (RootSeq.plain (by decide) (by decide) (by decide) (by decide)
          (by decide)
          (RootSeq.plain (by decide) (by decide) (by decide) (by decide)
            (by decide) RootSeq.nil)),
      Or.inl rfl⟩
    (by decide)
